import Mathlib

/- Verification development for the TEcount annotation-aggregation engine
   (TEcount.py).  The python source is shallowly embedded: python dicts
   become insertion-ordered association lists, python lists become Lean
   lists, indexing that can raise becomes Option, and an uncaught python
   exception is modelled as `none`. -/

set_option maxHeartbeats 1000000
set_option linter.unusedSectionVars false

/-- Insertion-ordered association list modelling a python `dict`:
iteration order is insertion order, updating an existing key keeps its
position, and a fresh key is appended at the end. -/
structure PyDict (α β : Type) where
  entries : List (α × β)
deriving DecidableEq, Repr

namespace PyDict

variable {α β : Type} [DecidableEq α]

/-- Lookup in an association list: first matching key wins. -/
def lget? : List (α × β) → α → Option β
  | [], _ => none
  | (k, v) :: t, a => if k = a then some v else lget? t a

/-- Update-or-append in an association list. -/
def lset : List (α × β) → α → β → List (α × β)
  | [], a, b => [(a, b)]
  | (k, v) :: t, a, b => if k = a then (k, b) :: t else (k, v) :: lset t a b

/-- The empty dict. -/
def empty : PyDict α β := ⟨[]⟩

/-- `d[a]` as an Option (python raises KeyError on a missing key). -/
def get? (d : PyDict α β) (a : α) : Option β := lget? d.entries a

/-- `d[a] = b`: update in place if present, else append. -/
def set (d : PyDict α β) (a : α) (b : β) : PyDict α β := ⟨lset d.entries a b⟩

/-- `d.keys()` in iteration (= insertion) order. -/
def keys (d : PyDict α β) : List α := d.entries.map Prod.fst

/-- Lookup with a default. -/
def getD (d : PyDict α β) (a : α) (b : β) : β := (d.get? a).getD b

/-- Rewrite every stored value in place (used to model loops of the form
`for k in d.keys(): d[k] = f k (d[k])`). -/
def mapVals (f : α → β → β) (d : PyDict α β) : PyDict α β :=
  ⟨d.entries.map (fun p => (p.1, f p.1 p.2))⟩

@[simp] theorem get?_empty (a : α) : (empty : PyDict α β).get? a = none := rfl

@[simp] theorem lget?_nil (a : α) : lget? ([] : List (α × β)) a = none := rfl

theorem lget?_cons (k : α) (v : β) (t : List (α × β)) (a : α) :
    lget? ((k, v) :: t) a = if k = a then some v else lget? t a := rfl

theorem lset_cons (k : α) (v : β) (t : List (α × β)) (a : α) (b : β) :
    lset ((k, v) :: t) a b =
      if k = a then (k, b) :: t else (k, v) :: lset t a b := rfl

theorem lget?_lset_self (l : List (α × β)) (a : α) (b : β) :
    lget? (lset l a b) a = some b := by
  induction l with
  | nil => simp [lset, lget?]
  | cons p t ih =>
    obtain ⟨k, v⟩ := p
    by_cases h : k = a
    · simp [lset, lget?, h]
    · simp [lset, lget?, h, ih]

theorem lget?_lset_ne (l : List (α × β)) (a a' : α) (b : β) (h : a' ≠ a) :
    lget? (lset l a b) a' = lget? l a' := by
  induction l with
  | nil =>
    show lget? [(a, b)] a' = none
    rw [lget?_cons, if_neg (Ne.symm h)]
    rfl
  | cons p t ih =>
    obtain ⟨k, v⟩ := p
    by_cases hk : k = a
    · subst hk
      rw [lset_cons, if_pos rfl, lget?_cons, lget?_cons,
        if_neg (Ne.symm h), if_neg (Ne.symm h)]
    · rw [lset_cons, if_neg hk, lget?_cons, lget?_cons, ih]

@[simp] theorem get?_set_self (d : PyDict α β) (a : α) (b : β) :
    (d.set a b).get? a = some b := lget?_lset_self d.entries a b

theorem get?_set_ne (d : PyDict α β) (a a' : α) (b : β) (h : a' ≠ a) :
    (d.set a b).get? a' = d.get? a' := lget?_lset_ne d.entries a a' b h

theorem get?_set (d : PyDict α β) (a a' : α) (b : β) :
    (d.set a b).get? a' = if a' = a then some b else d.get? a' := by
  by_cases h : a' = a
  · subst h; simp
  · simp [h, get?_set_ne d a a' b h]

theorem lset_keys_mem (l : List (α × β)) (a : α) (b : β)
    (h : a ∈ l.map Prod.fst) :
    (lset l a b).map Prod.fst = l.map Prod.fst := by
  induction l with
  | nil => simp at h
  | cons p t ih =>
    obtain ⟨k, v⟩ := p
    by_cases hk : k = a
    · simp [lset, hk]
    · rw [List.map_cons] at h
      have h' : a ∈ t.map Prod.fst := by
        rcases List.mem_cons.mp h with h1 | h1
        · exact absurd h1.symm hk
        · exact h1
      simp [lset, hk, ih h']

theorem lset_keys_notMem (l : List (α × β)) (a : α) (b : β)
    (h : a ∉ l.map Prod.fst) :
    (lset l a b).map Prod.fst = l.map Prod.fst ++ [a] := by
  induction l with
  | nil => simp [lset]
  | cons p t ih =>
    obtain ⟨k, v⟩ := p
    simp only [List.map_cons, List.mem_cons] at h
    push_neg at h
    rw [lset_cons, if_neg (fun h' => h.1 h'.symm)]
    simp [ih h.2]

theorem keys_set_mem (d : PyDict α β) (a : α) (b : β) (h : a ∈ d.keys) :
    (d.set a b).keys = d.keys := lset_keys_mem d.entries a b h

theorem keys_set_notMem (d : PyDict α β) (a : α) (b : β) (h : a ∉ d.keys) :
    (d.set a b).keys = d.keys ++ [a] := lset_keys_notMem d.entries a b h

theorem lget?_isSome_iff (l : List (α × β)) (a : α) :
    (lget? l a).isSome ↔ a ∈ l.map Prod.fst := by
  induction l with
  | nil => simp
  | cons p t ih =>
    obtain ⟨k, v⟩ := p
    by_cases h : k = a
    · simp [lget?, h]
    · rw [lget?_cons, if_neg h, ih]
      simp only [List.map_cons, List.mem_cons]
      constructor
      · exact Or.inr
      · rintro (h1 | h1)
        · exact absurd h1.symm h
        · exact h1

theorem get?_isSome_iff (d : PyDict α β) (a : α) :
    (d.get? a).isSome ↔ a ∈ d.keys := lget?_isSome_iff d.entries a

theorem mem_keys_of_get? (d : PyDict α β) (a : α) (b : β)
    (h : d.get? a = some b) : a ∈ d.keys := by
  rw [← get?_isSome_iff, h]; rfl

theorem get?_eq_none_of_notMem (d : PyDict α β) (a : α) (h : a ∉ d.keys) :
    d.get? a = none := by
  cases hh : d.get? a with
  | none => rfl
  | some b => exact absurd (mem_keys_of_get? d a b hh) h

@[simp] theorem get?_mapVals (f : α → β → β) (d : PyDict α β) (a : α) :
    (d.mapVals f).get? a = (d.get? a).map (f a) := by
  obtain ⟨l⟩ := d
  induction l with
  | nil => rfl
  | cons p t ih =>
    obtain ⟨k, v⟩ := p
    by_cases h : k = a
    · simp [mapVals, get?, lget?, h]
    · simpa [mapVals, get?, lget?, h] using ih

@[simp] theorem keys_mapVals (f : α → β → β) (d : PyDict α β) :
    (d.mapVals f).keys = d.keys := by
  simp [mapVals, keys]

theorem getD_set (d : PyDict α β) (a a' : α) (b b₀ : β) :
    (d.set a b).getD a' b₀ = if a' = a then b else d.getD a' b₀ := by
  by_cases h : a' = a <;> simp [getD, get?_set, h]

end PyDict

/-- Position of the first occurrence of `v` (the python interning key we
need to reason about `reverse_dict`). -/
def firstIdx {α : Type} [DecidableEq α] (v : α) : List α → Nat
  | [] => 0
  | x :: t => if x = v then 0 else firstIdx v t + 1

theorem firstIdx_append_self {α : Type} [DecidableEq α] (v : α)
    (A rest : List α) (h : v ∉ A) :
    firstIdx v (A ++ v :: rest) = A.length := by
  induction A with
  | nil => simp [firstIdx]
  | cons x t ih =>
    simp only [List.mem_cons] at h
    push_neg at h
    have hxv : ¬ x = v := fun h' => h.1 h'.symm
    simp [firstIdx, hxv, ih h.2]

theorem get?_firstIdx {α : Type} [DecidableEq α] (v : α) (L : List α)
    (h : v ∈ L) : L[firstIdx v L]? = some v := by
  induction L with
  | nil => simp at h
  | cons x t ih =>
    by_cases hx : x = v
    · simp [firstIdx, hx]
    · rcases List.mem_cons.mp h with h1 | h1
      · exact absurd h1.symm hx
      · simp [firstIdx, hx, ih h1]

/-- Pair every element of a list with consecutive indexes starting at `i`:
the shape of a python dict whose keys are consecutive ints. -/
def withIdx {α : Type} : Nat → List α → List (Nat × α)
  | _, [] => []
  | i, v :: t => (i, v) :: withIdx (i + 1) t

/-- The reversed pairing `value ↦ index` starting at `i`. -/
def revIdx {α : Type} : Nat → List α → List (α × Nat)
  | _, [] => []
  | i, v :: t => (v, i) :: revIdx (i + 1) t

@[simp] theorem withIdx_length {α : Type} (L : List α) :
    ∀ i, (withIdx i L).length = L.length := by
  induction L with
  | nil => intro i; rfl
  | cons v t ih => intro i; simp [withIdx, ih]

theorem withIdx_append_singleton {α : Type} (L : List α) (v : α) :
    ∀ i, withIdx i (L ++ [v]) = withIdx i L ++ [(i + L.length, v)] := by
  induction L with
  | nil => intro i; simp [withIdx]
  | cons x t ih =>
    intro i
    have harith : i + 1 + t.length = i + (t.length + 1) := by omega
    simp [withIdx, ih (i + 1), harith]

theorem revIdx_append_singleton {α : Type} (L : List α) (v : α) :
    ∀ i, revIdx i (L ++ [v]) = revIdx i L ++ [(v, i + L.length)] := by
  induction L with
  | nil => intro i; simp [revIdx]
  | cons x t ih =>
    intro i
    have harith : i + 1 + t.length = i + (t.length + 1) := by omega
    simp [revIdx, ih (i + 1), harith]

theorem lget?_withIdx {α : Type} (L : List α) :
    ∀ i k, PyDict.lget? (withIdx i L) k =
      if k < i then none else L[(k - i)]? := by
  induction L with
  | nil => intro i k; cases Nat.lt_or_ge k i <;> simp [withIdx, *]
  | cons v t ih =>
    intro i k
    simp only [withIdx, PyDict.lget?_cons]
    by_cases h : i = k
    · subst h
      simp
    · rw [if_neg h, ih (i + 1) k]
      by_cases h2 : k < i
      · rw [if_pos (by omega), if_pos h2]
      · rw [if_neg (by omega), if_neg h2]
        have hk : k - i = (k - (i + 1)) + 1 := by omega
        rw [hk]
        simp

theorem lget?_revIdx {α : Type} [DecidableEq α] (L : List α) (v : α) :
    ∀ i, PyDict.lget? (revIdx i L) v =
      if v ∈ L then some (i + firstIdx v L) else none := by
  induction L with
  | nil => intro i; simp [revIdx]
  | cons x t ih =>
    intro i
    by_cases hx : x = v
    · simp [revIdx, PyDict.lget?_cons, hx, firstIdx]
    · rw [revIdx, PyDict.lget?_cons, if_neg hx, ih (i + 1)]
      by_cases hm : v ∈ t
      · rw [if_pos hm, if_pos (by simp [hm])]
        have : firstIdx v (x :: t) = firstIdx v t + 1 := by simp [firstIdx, hx]
        rw [this]
        congr 1
        omega
      · have hnm : v ∉ x :: t := by
          simp only [List.mem_cons]
          push_neg
          exact ⟨fun h' => hx h'.symm, hm⟩
        rw [if_neg hm, if_neg hnm]

/- ------------------------------------------------------------------ -/
/- Double_dict: the interning table of TEcount.py.                     -/
/- ------------------------------------------------------------------ -/

/-- The `Double_dict` class: a forward dict (key → item) and a reverse
dict (item → key), storing highly redundant values once. -/
structure Double_dict where
  forward_dict : PyDict Nat String
  reverse_dict : PyDict String Nat
deriving DecidableEq, Repr

namespace Double_dict

/-- `Double_dict.__init__`: both dicts start empty. -/
def mkEmpty : Double_dict := ⟨PyDict.empty, PyDict.empty⟩

/-- `Double_dict.add`: return the existing key of a known item, otherwise
assign the next key `len(self.forward_dict.keys())` and record both
directions. -/
def add (d : Double_dict) (item : String) : Nat × Double_dict :=
  match d.reverse_dict.get? item with
  | some k => (k, d)
  | none =>
    let key := d.forward_dict.entries.length
    (key, ⟨d.forward_dict.set key item, d.reverse_dict.set item key⟩)

/-- `Double_dict.__len__`: the number of forward entries. -/
def size (d : Double_dict) : Nat := d.forward_dict.entries.length

/-- `Double_dict.__contains__`: membership in the reverse dict. -/
def containsItem (d : Double_dict) (item : String) : Bool :=
  (d.reverse_dict.get? item).isSome

/-- The canonical shape of a `Double_dict` that interned the distinct
values `L` in order: keys `0..L.length-1` in both directions. -/
def ofList (L : List String) : Double_dict :=
  ⟨⟨withIdx 0 L⟩, ⟨revIdx 0 L⟩⟩

/-- Fold a list of `add` calls, keeping the final table. -/
def addAll (vs : List String) : Double_dict :=
  vs.foldl (fun d v => (d.add v).2) mkEmpty

theorem get?_forward_ofList (L : List String) (k : Nat) :
    (ofList L).forward_dict.get? k = L[k]? := by
  simp [ofList, PyDict.get?, lget?_withIdx]

theorem get?_reverse_ofList (L : List String) (v : String) :
    (ofList L).reverse_dict.get? v =
      if v ∈ L then some (firstIdx v L) else none := by
  simp [ofList, PyDict.get?, lget?_revIdx]

theorem add_ofList (L : List String) (v : String) :
    (ofList L).add v =
      if v ∈ L then (firstIdx v L, ofList L)
      else (L.length, ofList (L ++ [v])) := by
  by_cases h : v ∈ L
  · simp [add, get?_reverse_ofList, h]
  · simp only [add, get?_reverse_ofList, if_neg h]
    have hfwd : (ofList L).forward_dict.set ((ofList L).forward_dict.entries.length) v =
        ⟨withIdx 0 (L ++ [v])⟩ := by
      simp only [ofList, withIdx_append_singleton, PyDict.set]
      congr 1
      have hlen : (PyDict.mk (withIdx 0 L)).entries.length = L.length := by
        simp
      rw [hlen]
      have : ∀ (M : List String) i j, i + M.length ≤ j →
          PyDict.lset (withIdx i M) j v = withIdx i M ++ [(j, v)] := by
        intro M
        induction M with
        | nil => intro i j _; simp [withIdx, PyDict.lset]
        | cons x t ih =>
          intro i j hj
          simp only [withIdx, PyDict.lset_cons]
          rw [if_neg (by simp at hj ⊢; omega), ih (i + 1) j (by simp at hj ⊢; omega)]
          simp
      rw [this L 0 L.length (by omega)]
      simp
    have hrev : (ofList L).reverse_dict.set v ((ofList L).forward_dict.entries.length) =
        ⟨revIdx 0 (L ++ [v])⟩ := by
      simp only [ofList, revIdx_append_singleton, PyDict.set]
      congr 1
      have hlen : (PyDict.mk (withIdx 0 L)).entries.length = L.length := by
        simp
      rw [hlen]
      have : ∀ (M : List String) i, v ∉ M →
          PyDict.lset (revIdx i M) v L.length = revIdx i M ++ [(v, L.length)] := by
        intro M
        induction M with
        | nil => intro i _; simp [revIdx, PyDict.lset]
        | cons x t ih =>
          intro i hm
          simp only [List.mem_cons] at hm
          push_neg at hm
          simp only [revIdx, PyDict.lset_cons]
          rw [if_neg (fun h' => hm.1 h'.symm), ih (i + 1) hm.2]
          simp
      rw [this L 0 h]
      simp
    simp only [ofList] at hfwd hrev ⊢
    rw [hfwd, hrev]
    simp [ofList]

end Double_dict

/-- First-occurrence deduplication seeded with an accumulator: the order
in which a stream of values receives fresh interning keys. -/
def firstSeenFrom (A : List String) (vs : List String) : List String :=
  vs.foldl (fun acc v => if v ∈ acc then acc else acc ++ [v]) A

/-- First-occurrence deduplication of a list of values. -/
def firstSeen (vs : List String) : List String := firstSeenFrom [] vs

theorem firstSeenFrom_nil (A : List String) : firstSeenFrom A [] = A := rfl

theorem firstSeenFrom_cons (A : List String) (v : String) (vs : List String) :
    firstSeenFrom A (v :: vs) =
      firstSeenFrom (if v ∈ A then A else A ++ [v]) vs := rfl

theorem firstSeenFrom_append (A : List String) (us vs : List String) :
    firstSeenFrom A (us ++ vs) = firstSeenFrom (firstSeenFrom A us) vs := by
  induction us generalizing A with
  | nil => rfl
  | cons u t ih => simp [firstSeenFrom_cons, ih]

theorem mem_firstSeenFrom (A vs : List String) (x : String) :
    x ∈ firstSeenFrom A vs ↔ x ∈ A ∨ x ∈ vs := by
  induction vs generalizing A with
  | nil => simp [firstSeenFrom_nil]
  | cons v t ih =>
    rw [firstSeenFrom_cons]
    by_cases h : v ∈ A
    · rw [if_pos h, ih]
      constructor
      · rintro (hx | hx)
        · exact Or.inl hx
        · exact Or.inr (List.mem_cons_of_mem v hx)
      · rintro (hx | hx)
        · exact Or.inl hx
        · rcases List.mem_cons.mp hx with hx | hx
          · exact Or.inl (hx ▸ h)
          · exact Or.inr hx
    · rw [if_neg h, ih]
      simp only [List.mem_append, List.mem_singleton, List.mem_cons]
      tauto

theorem nodup_firstSeenFrom (A vs : List String) (h : A.Nodup) :
    (firstSeenFrom A vs).Nodup := by
  induction vs generalizing A with
  | nil => exact h
  | cons v t ih =>
    rw [firstSeenFrom_cons]
    by_cases hv : v ∈ A
    · rw [if_pos hv]; exact ih A h
    · rw [if_neg hv]
      exact ih (A ++ [v]) (by simp [List.nodup_append, h, hv])

theorem nodup_firstSeen (vs : List String) : (firstSeen vs).Nodup :=
  nodup_firstSeenFrom [] vs List.nodup_nil

theorem mem_firstSeen (vs : List String) (x : String) :
    x ∈ firstSeen vs ↔ x ∈ vs := by
  simp [firstSeen, mem_firstSeenFrom]

theorem firstSeenFrom_isPrefix (A vs : List String) :
    A <+: firstSeenFrom A vs := by
  induction vs generalizing A with
  | nil => exact List.prefix_refl A
  | cons v t ih =>
    rw [firstSeenFrom_cons]
    by_cases h : v ∈ A
    · rw [if_pos h]; exact ih A
    · rw [if_neg h]
      exact List.IsPrefix.trans ⟨[v], rfl⟩ (ih (A ++ [v]))

theorem toFinset_firstSeen (vs : List String) :
    (firstSeen vs).toFinset = vs.toFinset := by
  ext x
  simp [mem_firstSeen]

/-- Folding `Double_dict.add` over a stream starting from an interned
table leaves an interned table of the seeded first-seen values. -/
theorem foldl_add_ofList (vs : List String) :
    ∀ L, vs.foldl (fun d v => (d.add v).2) (Double_dict.ofList L) =
      Double_dict.ofList (firstSeenFrom L vs) := by
  induction vs with
  | nil => intro L; rfl
  | cons v t ih =>
    intro L
    rw [List.foldl_cons, Double_dict.add_ofList, firstSeenFrom_cons]
    by_cases h : v ∈ L
    · rw [if_pos h, if_pos h]
      exact ih L
    · rw [if_neg h, if_neg h]
      exact ih (L ++ [v])

theorem addAll_eq_ofList (vs : List String) :
    Double_dict.addAll vs = Double_dict.ofList (firstSeen vs) := by
  have h : Double_dict.mkEmpty = Double_dict.ofList [] := rfl
  rw [Double_dict.addAll, h, foldl_add_ofList]
  rfl

/-- Claim C5.  For every finite sequence of `Double_dict.add` calls:
re-adding a value returns the key that its first `add` returned; the
table's size equals the number of distinct values added; and the
assigned keys are exactly `0..size-1` in first-seen order. -/
theorem claim_C5 (xs ys vs : List String) (v : String) :
    (v ∉ xs →
      ((Double_dict.addAll (xs ++ v :: ys)).add v).1 =
        ((Double_dict.addAll xs).add v).1)
    ∧ (Double_dict.addAll vs).size = vs.toFinset.card
    ∧ (Double_dict.addAll vs).forward_dict.entries = withIdx 0 (firstSeen vs)
    ∧ (Double_dict.addAll vs).forward_dict.entries.map Prod.fst =
        List.range (Double_dict.addAll vs).size := by
  refine ⟨?_, ?_, ?_, ?_⟩
  · intro hv
    rw [addAll_eq_ofList, addAll_eq_ofList, Double_dict.add_ofList,
      Double_dict.add_ofList]
    have hmem : v ∈ firstSeen (xs ++ v :: ys) := by
      rw [mem_firstSeen]
      simp
    have hnm : v ∉ firstSeen xs := by
      rw [mem_firstSeen]
      exact hv
    rw [if_pos hmem, if_neg hnm]
    have hnm' : v ∉ firstSeenFrom [] xs := hnm
    have hsplit : firstSeen (xs ++ v :: ys) =
        firstSeenFrom (firstSeen xs ++ [v]) ys := by
      rw [firstSeen, firstSeenFrom_append, firstSeenFrom_cons, if_neg hnm']
      rfl
    obtain ⟨rest, hrest⟩ := firstSeenFrom_isPrefix (firstSeen xs ++ [v]) ys
    simp only [hsplit, ← hrest]
    rw [List.append_assoc, List.singleton_append,
      firstIdx_append_self v (firstSeen xs) rest hnm]
  · rw [addAll_eq_ofList]
    have h1 : (Double_dict.ofList (firstSeen vs)).size = (firstSeen vs).length := by
      simp [Double_dict.size, Double_dict.ofList]
    rw [h1, ← toFinset_firstSeen vs,
      List.toFinset_card_of_nodup (nodup_firstSeen vs)]
  · rw [addAll_eq_ofList]
    rfl
  · rw [addAll_eq_ofList]
    have hkeys : ∀ (L : List String) i,
        (withIdx i L).map Prod.fst = List.range' i L.length := by
      intro L
      induction L with
      | nil => intro i; rfl
      | cons x t ih =>
        intro i
        simp [withIdx, ih, List.range']
    have hsize : (Double_dict.ofList (firstSeen vs)).size = (firstSeen vs).length := by
      simp [Double_dict.size, Double_dict.ofList]
    rw [hsize]
    show (withIdx 0 (firstSeen vs)).map Prod.fst = List.range (firstSeen vs).length
    rw [hkeys (firstSeen vs) 0, List.range_eq_range']

/-- Witness for claim C5 at concrete inputs. -/
theorem claim_C5_witness :
    ("b" ∉ ["a"] ∧
      ((Double_dict.addAll (["a"] ++ "b" :: ["c", "b"])).add "b").1 =
        ((Double_dict.addAll ["a"]).add "b").1)
    ∧ (Double_dict.addAll ["x", "y", "x"]).size =
        (["x", "y", "x"] : List String).toFinset.card := by
  refine ⟨⟨by decide, ?_⟩, ?_⟩
  · exact (claim_C5 ["a"] ["c", "b"] [] "b").1 (by decide)
  · exact (claim_C5 [] [] ["x", "y", "x"] "z").2.1

/- ------------------------------------------------------------------ -/
/- Python string/list primitives used by TEcount.py.                   -/
/- ------------------------------------------------------------------ -/

/-- Tokenizer behind python `str.split()`: `cur` holds the reversed
characters of the token being read. -/
def pyWordsAux : List Char → List Char → List (List Char)
  | cur, [] => if cur.isEmpty then [] else [cur.reverse]
  | cur, c :: t =>
    if c.isWhitespace then
      if cur.isEmpty then pyWordsAux [] t else cur.reverse :: pyWordsAux [] t
    else pyWordsAux (c :: cur) t

/-- Python `str.split()` with no argument: split on runs of whitespace,
dropping empty pieces. -/
def pySplit (s : String) : List String :=
  (pyWordsAux [] s.data).map (fun cs => String.mk cs)

/-- Python `s[i]` on a string for a non-negative index; `none` models
IndexError. -/
def pyStrGet (s : String) (i : Nat) : Option Char := s.data[i]?

/-- Digit accumulator for `pyInt`. -/
def natOfDigitsAux (acc : Nat) : List Char → Option Nat
  | [] => some acc
  | c :: t =>
    if c.isDigit then natOfDigitsAux (acc * 10 + (c.toNat - '0'.toNat)) t
    else none

/-- Python `int(s)` on a whitespace-free token: optional minus sign and
digits; `none` models ValueError. -/
def pyInt (s : String) : Option Int :=
  match s.data with
  | [] => none
  | '-' :: t =>
    match t with
    | [] => none
    | _ => (natOfDigitsAux 0 t).map (fun n => -(n : Int))
  | cs => (natOfDigitsAux 0 cs).map (fun n => (n : Int))

/-- Resolve a python list index (a negative index counts from the end);
`none` models IndexError. -/
def pyIdx (n : Nat) (i : Int) : Option Nat :=
  if 0 ≤ i then (if i < (n : Int) then some i.toNat else none)
  else (if 0 ≤ (n : Int) + i then some ((n : Int) + i).toNat else none)

/-- Python `l[i]` with python index semantics. -/
def pyGetI {α : Type} (l : List α) (i : Int) : Option α :=
  (pyIdx l.length i).bind (fun j => l[j]?)

/-- Python `l[i] = x` with python index semantics. -/
def pySetI {α : Type} (l : List α) (i : Int) (x : α) : Option (List α) :=
  (pyIdx l.length i).map (fun j => l.set j x)

theorem pyIdx_some_of_lt (n : Nat) (i : Int) (h0 : 0 ≤ i) (h : i < (n : Int)) :
    pyIdx n i = some i.toNat := by
  simp [pyIdx, h0, h]

theorem pyIdx_none_of_ge (n : Nat) (i : Int) (h0 : 0 ≤ i) (h : (n : Int) ≤ i) :
    pyIdx n i = none := by
  simp only [pyIdx, if_pos h0]
  rw [if_neg (by omega)]

theorem pySetI_length {α : Type} (l l' : List α) (i : Int) (x : α)
    (h : pySetI l i x = some l') : l'.length = l.length := by
  unfold pySetI at h
  cases hj : pyIdx l.length i with
  | none => rw [hj] at h; cases h
  | some j =>
    rw [hj] at h
    have hset : l.set j x = l' := by simpa using h
    rw [← hset]
    simp

theorem pySetI_isSome {α : Type} (l : List α) (i : Int) (x : α)
    (h0 : 0 ≤ i) (h : i < (l.length : Int)) : pySetI l i x = some (l.set i.toNat x) := by
  unfold pySetI
  rw [pyIdx_some_of_lt l.length i h0 h]
  rfl

theorem pySetI_none {α : Type} (l : List α) (i : Int) (x : α)
    (h0 : 0 ≤ i) (h : (l.length : Int) ≤ i) : pySetI l i x = none := by
  unfold pySetI
  rw [pyIdx_none_of_ge l.length i h0 h]
  rfl

/- ------------------------------------------------------------------ -/
/- Classification of alignment-stream lines (Count.__count).           -/
/- ------------------------------------------------------------------ -/

/-- Which Rosette counter a qualifying alignment record is routed to. -/
inductive Route
  | main
  | small
deriving DecidableEq, Repr

/-- One iteration of the `Count.__count` loop on a raw alignment line.
`none` models an uncaught exception, `some none` a line that contributes
no count (header or non-qualifying), and `some (some r)` a line that
contributes exactly one count, routed to `Rosette.count` (`Route.main`)
or `Rosette.count_si` (`Route.small`).  Field accesses at indexes 2 and 4
are guarded by the `len(line) > 4` test exactly as in the source's
short-circuit condition; index 9 is unguarded there, as in the source. -/
def classifyLine (sirnaOn : Bool) (maxMapq sirnaSize : Int) (line : String) :
    Option (Option Route) := do
  let c0 ← pyStrGet line 0
  if c0 = '@' then
    pure none
  else
    let fields := pySplit line
    if 4 < fields.length then do
      let c2 ← pyStrGet (fields.getD 2 "") 0
      if c2 ≠ '*' then do
        let q ← pyInt (fields.getD 4 "")
        if q ≤ maxMapq then
          if sirnaOn then do
            let f9 ← fields[9]?
            if (f9.length : Int) ≠ sirnaSize then pure (some Route.main)
            else pure (some Route.small)
          else pure (some Route.main)
        else pure none
      else pure none
    else pure none

theorem classifyLine_eq (sirnaOn : Bool) (maxMapq sirnaSize : Int)
    (line : String) (c0 : Char) (h0 : pyStrGet line 0 = some c0)
    (hat : c0 ≠ '@') :
    classifyLine sirnaOn maxMapq sirnaSize line =
      (if 4 < (pySplit line).length then
        (pyStrGet ((pySplit line).getD 2 "") 0).bind (fun c2 =>
          if c2 ≠ '*' then
            (pyInt ((pySplit line).getD 4 "")).bind (fun q =>
              if q ≤ maxMapq then
                (if sirnaOn then
                  ((pySplit line)[9]?).bind (fun f9 =>
                    if (f9.length : Int) ≠ sirnaSize then some (some Route.main)
                    else some (some Route.small))
                 else some (some Route.main))
              else some none)
          else some none)
      else some none) := by
  simp only [classifyLine, h0, Option.bind_eq_bind, Option.some_bind, if_neg hat]
  by_cases hlen : 4 < (pySplit line).length
  · simp only [if_pos hlen]
    rfl
  · simp only [if_neg hlen]
    rfl

/-- The grouping-column adjustment in `Rosette.__init__`:
`self.count_column = int(count_column) - 1; if self.count_column <= 0:
self.count_column = 1`.  The result is the internal 0-based index. -/
def fixCountColumn (c : Int) : Int :=
  let cc := c - 1
  if cc ≤ 0 then 1 else cc

/-- Counterexample to claim C7: the valid supplied 1-based value 1 is
silently changed — the internal 0-based index becomes 1, so the column
actually used is the second column, not column 1. -/
theorem claim_C7_cex : fixCountColumn 1 + 1 = 2 ∧ (2 : Int) ≠ 1 := by decide

/-- Claim C7 (amended): any supplied 1-based grouping column ≤ 1 is
coerced (with a warning) to internal index 1, i.e. the second column;
every supplied value ≥ 2 is used unchanged as internal index c − 1. -/
theorem claim_C7 (c : Int) :
    (c ≤ 1 → fixCountColumn c = 1) ∧ (2 ≤ c → fixCountColumn c = c - 1) := by
  unfold fixCountColumn
  constructor
  · intro h
    simp only []
    rw [if_pos (by omega)]
  · intro h
    simp only []
    rw [if_neg (by omega)]

/-- Witness for claim C7 at concrete inputs. -/
theorem claim_C7_witness :
    ((0 : Int) ≤ 1 ∧ fixCountColumn 0 = 1) ∧
      ((2 : Int) ≤ 5 ∧ fixCountColumn 5 = 4) :=
  ⟨⟨by decide, (claim_C7 0).1 (by decide)⟩,
   ⟨by decide, (claim_C7 5).2 (by decide)⟩⟩

/-- Counterexample to claim C3: this data line has 5 fields, its
reference-identifier field is "*x" — not the unmapped placeholder "*" —
and its quality 0 is within the maximum 255, so the claim says it
contributes a count; the code tests only the first character
(`line[2][0] != '*'`) and contributes none. -/
theorem claim_C3_cex :
    4 < (pySplit "r1 0 *x 1 0").length ∧
    (pySplit "r1 0 *x 1 0").getD 2 "" ≠ "*" ∧
    pyInt ((pySplit "r1 0 *x 1 0").getD 4 "") = some 0 ∧ (0 : Int) ≤ 255 ∧
    classifyLine false 255 21 "r1 0 *x 1 0" = some none := by
  refine ⟨by decide, by decide, by decide, by decide, ?_⟩
  decide

/-- Claim C3 (amended): in the non-small-RNA branch, a non-header line
contributes exactly one count iff it has more than 4 whitespace-separated
fields, its reference-identifier field does not start with the unmapped
marker character, and its mapping-quality field parses as an integer that
is at most the configured maximum; hence a record with quality exactly the
maximum counts, one greater does not, and an unmapped record never
counts. -/
theorem claim_C3 (maxMapq sirnaSize : Int) (line : String) (c0 : Char)
    (h0 : pyStrGet line 0 = some c0) (hat : c0 ≠ '@') :
    (∃ r, classifyLine false maxMapq sirnaSize line = some (some r)) ↔
      (4 < (pySplit line).length ∧
       ∃ c2, pyStrGet ((pySplit line).getD 2 "") 0 = some c2 ∧ c2 ≠ '*' ∧
         ∃ q, pyInt ((pySplit line).getD 4 "") = some q ∧ q ≤ maxMapq) := by
  rw [classifyLine_eq false maxMapq sirnaSize line c0 h0 hat]
  by_cases hlen : 4 < (pySplit line).length
  · rw [if_pos hlen]
    cases hc2 : pyStrGet ((pySplit line).getD 2 "") 0 with
    | none => simp [hlen]
    | some c2 =>
      by_cases hstar : c2 = '*'
      · simp [hlen, hstar]
      · cases hq : pyInt ((pySplit line).getD 4 "") with
        | none => simp [hlen, hstar, hq]
        | some q =>
          by_cases hqle : q ≤ maxMapq
          · simp [hlen, hstar, hq, hqle]
          · simp [hlen, hstar, hq, hqle]
  · rw [if_neg hlen]
    simp [hlen]

/-- Witness for claim C3 at a concrete qualifying line. -/
theorem claim_C3_witness :
    ∃ r, classifyLine false 5 21 "r1 0 chr2 10 5" = some (some r) := by
  refine (claim_C3 5 21 "r1 0 chr2 10 5" 'r' (by decide) (by decide)).mpr ?_
  refine ⟨by decide, 'c', by decide, by decide, 5, by decide, by decide⟩

/-- Claim C9: a qualifying record that has a read-sequence field is
routed exclusively by read length when small-RNA splitting is enabled
(length exactly `sirnaSize` to the small-RNA counter, any other length to
the main counter) and always to the main counter when splitting is
disabled; it is never dropped or double-counted. -/
theorem claim_C9 (maxMapq sirnaSize : Int) (line : String) (c0 c2 : Char)
    (q : Int) (f9 : String)
    (h0 : pyStrGet line 0 = some c0) (hat : c0 ≠ '@')
    (hlen : 4 < (pySplit line).length)
    (hc2 : pyStrGet ((pySplit line).getD 2 "") 0 = some c2)
    (hstar : c2 ≠ '*')
    (hq : pyInt ((pySplit line).getD 4 "") = some q) (hqle : q ≤ maxMapq)
    (h9 : (pySplit line)[9]? = some f9) :
    classifyLine true maxMapq sirnaSize line =
      some (some (if (f9.length : Int) = sirnaSize then Route.small
                  else Route.main))
    ∧ classifyLine false maxMapq sirnaSize line = some (some Route.main) := by
  have hq' : pyInt ((pySplit line)[4]?.getD "") = some q := by
    simpa [List.getD_eq_getElem?_getD] using hq
  constructor
  · rw [classifyLine_eq true maxMapq sirnaSize line c0 h0 hat, if_pos hlen,
      hc2]
    by_cases hsz : (f9.length : Int) = sirnaSize
    · simp [hstar, hq', hqle, h9, hsz]
    · simp [hstar, hq', hqle, h9, hsz]
  · rw [classifyLine_eq false maxMapq sirnaSize line c0 h0 hat, if_pos hlen,
      hc2]
    simp [hstar, hq', hqle]

/-- Witness for claim C9 at a concrete 11-field alignment line whose read
sequence has length 4. -/
theorem claim_C9_witness :
    classifyLine true 255 4 "r1 0 chr2 10 5 4M x x 0 ACGT q" =
      some (some Route.small)
    ∧ classifyLine false 255 4 "r1 0 chr2 10 5 4M x x 0 ACGT q" =
      some (some Route.main) := by
  have h := claim_C9 255 4 "r1 0 chr2 10 5 4M x x 0 ACGT q" 'r' 'c' 5 "ACGT"
    (by decide) (by decide) (by decide) (by decide) (by decide) (by decide)
    (by decide) (by decide)
  exact ⟨by rw [h.1]; decide, h.2⟩

/- ------------------------------------------------------------------ -/
/- The Rosette annotation table.                                       -/
/- ------------------------------------------------------------------ -/

/-- Python list comparison on key vectors, as used by
`sorted(..., key=lambda key: self.TE_count_variable[key])`:
lexicographic, an exhausted left list first. -/
def listNatLe : List Nat → List Nat → Bool
  | [], _ => true
  | _ :: _, [] => false
  | x :: xs, y :: ys =>
    if x < y then true else if y < x then false else listNatLe xs ys

/-- Stable insertion step of the sort modelling python `sorted`. -/
def insertSortedBy (f : String → List Nat) (x : String) :
    List String → List String
  | [] => [x]
  | y :: t =>
    if listNatLe (f x) (f y) then x :: y :: t else y :: insertSortedBy f x t

/-- Stable sort by a key function, extensionally equal to python
`sorted(l, key=f)` (both are stable sorts for the same total preorder). -/
def pySortedBy (f : String → List Nat) (l : List String) : List String :=
  l.foldr (insertSortedBy f) []

/-- Python `s[1:]`: drop the first character. -/
def pyStrTail (s : String) : String := String.mk (s.data.drop 1)

/-- One decimal digit as a character. -/
def digitChar : Nat → Char
  | 0 => '0' | 1 => '1' | 2 => '2' | 3 => '3' | 4 => '4'
  | 5 => '5' | 6 => '6' | 7 => '7' | 8 => '8' | _ => '9'

/-- Decimal digits of `n` (fuel-bounded so the kernel can evaluate). -/
def natDigits : Nat → Nat → List Char
  | 0, _ => []
  | fuel + 1, n =>
    if n < 10 then [digitChar n]
    else natDigits fuel (n / 10) ++ [digitChar (n % 10)]

/-- Python `str()` of an integer. -/
def pyStr (i : Int) : String :=
  match i with
  | Int.ofNat n => String.mk (natDigits (n + 1) n)
  | Int.negSucc m => String.mk ('-' :: natDigits (m + 2) (m + 1))

/-- The `Rosette` class.  File paths and printing are not modelled; the
pair `sirnaDicts` is `some` exactly when `count_sirna` is true (the
python attributes `sirna_count`/`sirna_count_total` exist only then). -/
structure Rosette where
  sample_number : Nat
  current_sample : Int
  count_column : Nat
  column_number : Nat
  TE : List Double_dict
  TE_identifier : PyDict String (List Nat)
  TE_count_variable : PyDict String (List Nat)
  TE_count : PyDict String (List Int)
  TE_count_total : PyDict String Int
  TE_count_valid : PyDict String Bool
  sirnaDicts : Option (PyDict String (List Int) × PyDict String Int)
  purged : Bool
deriving DecidableEq, Repr

namespace Rosette

/-- `Rosette.sirna()`. -/
def sirna (r : Rosette) : Bool := r.sirnaDicts.isSome

/-- `Rosette.__init__` without the file I/O: the rosette file arrives as
pre-split lines.  `column_number` counts the first line's fields, one
`Double_dict` is allocated per column, and the grouping column is the
adjusted `fixCountColumn` value.  Loading the rows happens in `load`. -/
def init (rows : List (List String)) (count_column : Int)
    (sample_number : Nat) (sirnaEnabled : Bool) : Rosette :=
  let N := (rows.headD []).length
  { sample_number := sample_number
    current_sample := -1
    count_column := (fixCountColumn count_column).toNat
    column_number := N
    TE := Double_dict.mkEmpty :: List.replicate (N - 1) Double_dict.mkEmpty
    TE_identifier := PyDict.empty
    TE_count_variable := PyDict.empty
    TE_count := PyDict.empty
    TE_count_total := PyDict.empty
    TE_count_valid := PyDict.empty
    sirnaDicts :=
      if sirnaEnabled then some (PyDict.empty, PyDict.empty) else none
    purged := false }

/-- The attribute-interning loop of `Rosette.add`:
`for i in range(column_number-1): if i+1 != count_column:
keys.append(self.TE[i].add(line[i+1]))`, threading the `TE` list and the
growing key vector. -/
def addLoop (cc : Nat) (line : List String) (idxs : List Nat)
    (st : List Double_dict × List Nat) :
    Option (List Double_dict × List Nat) :=
  idxs.foldlM (fun st i =>
    if i + 1 ≠ cc then do
      let v ← line.get? (i + 1)
      let dd ← List.get? st.1 i
      let p := dd.add v
      pure (st.1.set i p.2, st.2 ++ [p.1])
    else pure st) st

/-- `Rosette.add`: intern one annotation row.  The grouping-column value
is interned first, then the other attribute columns; the key vector is
recorded for the row identifier and for the grouping variable, whose
per-sample vector, lifetime total and validity flag are (re)initialised.
Short rows raise IndexError, modelled by `none`. -/
def addKeysStep (r : Rosette) (line : List String)
    (st0 : List Double_dict × List Nat) :
    Option (List Double_dict × List Nat) :=
  if r.column_number - 1 > 1 then
    addLoop r.count_column line (List.range (r.column_number - 1)) st0
  else pure st0

/-- `Rosette.add`: intern one annotation row (continued). -/
def add (r : Rosette) (line : List String) : Option Rosette := do
  let ident ← line.get? 0
  let gval ← line.get? r.count_column
  let dd0 ← r.TE.get? r.count_column
  let p0 := dd0.add gval
  let st0 := (r.TE.set r.count_column p0.2, [p0.1])
  let st ← addKeysStep r line st0
  let count_variable := gval
  let r1 : Rosette := { r with
    TE := st.1
    TE_identifier := r.TE_identifier.set ident st.2
    TE_count_variable := r.TE_count_variable.set count_variable st.2
    TE_count :=
      r.TE_count.set count_variable (List.replicate r.sample_number 0)
    TE_count_total := r.TE_count_total.set count_variable 0
    TE_count_valid := r.TE_count_valid.set count_variable true }
  match r.sirnaDicts with
  | some sd =>
    let sdNew := (sd.1.set count_variable (List.replicate r.sample_number 0),
                  sd.2.set count_variable 0)
    pure { r1 with sirnaDicts := some sdNew }
  | none => pure r1

/-- `Rosette.__init__` followed by `Rosette.read`: the constructor reads
the first line for the column count, then `read` feeds every line of the
file (including the first) through `add`; a mismatched column count is
only logged. -/
def load (rows : List (List String)) (count_column : Int)
    (sample_number : Nat) (sirnaEnabled : Bool) : Option Rosette :=
  rows.foldlM add (init rows count_column sample_number sirnaEnabled)

/-- `Rosette.count`: an unknown identifier is only logged (state kept);
a known one bumps the current sample's slot and the lifetime total of
its grouping variable. -/
def count (r : Rosette) (identifier : String) (amount : Int) :
    Option Rosette :=
  match r.TE_identifier.get? identifier with
  | none => some r
  | some keys => do
    let k0 ← keys.get? 0
    let dd ← r.TE.get? r.count_column
    let count_variable ← dd.forward_dict.get? k0
    let row ← r.TE_count.get? count_variable
    let old ← pyGetI row r.current_sample
    let row' ← pySetI row r.current_sample (old + amount)
    let tot ← r.TE_count_total.get? count_variable
    pure { r with
      TE_count := r.TE_count.set count_variable row'
      TE_count_total := r.TE_count_total.set count_variable (tot + amount) }

/-- `Rosette.count_si`: the small-RNA twin of `count`; accessing the
sirna dicts with splitting disabled is an AttributeError (`none`). -/
def count_si (r : Rosette) (identifier : String) (amount : Int) :
    Option Rosette :=
  match r.TE_identifier.get? identifier with
  | none => some r
  | some keys => do
    let k0 ← keys.get? 0
    let dd ← r.TE.get? r.count_column
    let count_variable ← dd.forward_dict.get? k0
    let sd ← r.sirnaDicts
    let row ← sd.1.get? count_variable
    let old ← pyGetI row r.current_sample
    let row' ← pySetI row r.current_sample (old + amount)
    let tot ← sd.2.get? count_variable
    let sdNew := (sd.1.set count_variable row',
                  sd.2.set count_variable (tot + amount))
    pure { r with sirnaDicts := some sdNew }

/-- `Rosette.get_count_variable`: the outer `none` is an uncaught
exception, `some none` the logged not-found case. -/
def get_count_variable (r : Rosette) (identifier : String) :
    Option (Option String) :=
  match r.TE_identifier.get? identifier with
  | none => some none
  | some keys => do
    let k0 ← keys.get? 0
    let dd ← r.TE.get? r.count_column
    let v ← dd.forward_dict.get? k0
    pure (some v)

/-- The identifier → grouping-variable relation induced by the stored
key vectors: `some v` iff the identifier is known and resolves cleanly
through the grouping column's interning table. -/
def resolveVar (r : Rosette) (identifier : String) : Option String :=
  match r.get_count_variable identifier with
  | some (some v) => some v
  | _ => none

/-- `Rosette.reset_count`: advance the sample cursor and zero every
grouping variable's slot for it; lifetime totals are never touched. -/
def reset_count (r : Rosette) : Option Rosette :=
  let cs := r.current_sample + 1
  match r.sirnaDicts with
  | some sd => do
    let st ← (r.TE_count_variable.keys).foldlM
      (fun (st : PyDict String (List Int) × PyDict String (List Int))
           item => do
        let row ← st.1.get? item
        let row' ← pySetI row cs 0
        let srow ← st.2.get? item
        let srow' ← pySetI srow cs 0
        pure (st.1.set item row', st.2.set item srow'))
      (r.TE_count, sd.1)
    pure { r with current_sample := cs, TE_count := st.1,
                  sirnaDicts := some (st.2, sd.2) }
  | none => do
    let tc ← (r.TE_count_variable.keys).foldlM
      (fun (tc : PyDict String (List Int)) item => do
        let row ← tc.get? item
        let row' ← pySetI row cs 0
        pure (tc.set item row'))
      r.TE_count
    pure { r with current_sample := cs, TE_count := tc }

/-- `Rosette.purge`: invalidate every grouping variable, then mark valid
each one that some sequence-file header (`'>'`-line, first token, marker
stripped) resolves to. -/
def purge (r : Rosette) (flines : List String) : Option Rosette := do
  let valid0 := r.TE_count_valid.mapVals (fun _ _ => false)
  let validF ← flines.foldlM (fun D line => do
      let c ← pyStrGet line 0
      if c = '>' then do
        let tok ← (pySplit line).get? 0
        match r.get_count_variable (pyStrTail tok) with
        | none => none
        | some none => pure D
        | some (some cv) => pure (D.set cv true)
      else pure D) valid0
  pure { r with TE_count_valid := validF, purged := true }

/-- The attribute-output loop shared by both `Rosette.write` branches:
`for i in range(column_number-1): if i+1 != count_column:
write(TE[i][keys[i]])`. -/
def writeAttrs (r : Rosette) (keys : List Nat) : Option (List String) :=
  (List.range (r.column_number - 1)).foldlM (fun acc i =>
    if i + 1 ≠ r.count_column then do
      let k ← keys.get? i
      let dd ← r.TE.get? i
      let v ← dd.forward_dict.get? k
      pure (acc ++ [v])
    else pure acc) []

/-- One output line of `Rosette.write` (as its list of fields): grouping
value, other attributes, per-sample counts, lifetime total.  The count
and total dicts are parameters because the small-RNA branch writes the
same prefix with its own counts. -/
def writeLineWith (r : Rosette) (counts : PyDict String (List Int))
    (totals : PyDict String Int) (item : String) : Option (List String) := do
  let keys ← r.TE_count_variable.get? item
  let k0 ← keys.get? 0
  let dd ← r.TE.get? r.count_column
  let gv ← dd.forward_dict.get? k0
  let attrs ← r.writeAttrs keys
  let row ← counts.get? item
  let tot ← totals.get? item
  pure (gv :: (attrs ++ row.map pyStr ++ [pyStr tot]))

/-- `Rosette.write`: iterate the grouping variables sorted by their
stored key vectors and emit a line for each valid one; the second
component holds the small-RNA file's lines (empty when disabled). -/
def write (r : Rosette) :
    Option (List (List String) × List (List String)) :=
  let items := pySortedBy (fun k => r.TE_count_variable.getD k [])
    r.TE_count_variable.keys
  match r.sirnaDicts with
  | some sd =>
    items.foldlM (fun acc item => do
      let valid ← r.TE_count_valid.get? item
      if valid then do
        let l1 ← r.writeLineWith r.TE_count r.TE_count_total item
        let l2 ← r.writeLineWith sd.1 sd.2 item
        pure (acc.1 ++ [l1], acc.2 ++ [l2])
      else pure acc)
      (([], []) : List (List String) × List (List String))
  | none => do
    let ls ← items.foldlM (fun acc item => do
      let valid ← r.TE_count_valid.get? item
      if valid then do
        let l1 ← r.writeLineWith r.TE_count r.TE_count_total item
        pure (acc ++ [l1])
      else pure acc) ([] : List (List String))
    pure (ls, [])

end Rosette

/-- One driver-visible Rosette mutation: `startSample` is
`Rosette.reset_count` (run at the start of each sample), the others are
the per-record count calls. -/
inductive RosOp
  | startSample
  | countMain (identifier : String) (amount : Int)
  | countSmall (identifier : String) (amount : Int)
deriving DecidableEq, Repr

namespace Rosette

/-- Apply one driver operation. -/
def applyOp (r : Rosette) : RosOp → Option Rosette
  | RosOp.startSample => r.reset_count
  | RosOp.countMain ident a => r.count ident a
  | RosOp.countSmall ident a => r.count_si ident a

/-- Run a sequence of driver operations. -/
def runOps (r : Rosette) (ops : List RosOp) : Option Rosette :=
  ops.foldlM applyOp r

/-- The small-RNA lifetime total of `v` (0 when splitting is off). -/
def sirnaTotalD (r : Rosette) (v : String) : Int :=
  match r.sirnaDicts with
  | some sd => sd.2.getD v 0
  | none => 0

/-- Sum of the amounts of the `count` calls in `ops` whose identifier
resolves to `v`. -/
def opsMainSum (r : Rosette) (ops : List RosOp) (v : String) : Int :=
  (ops.map (fun op => match op with
    | RosOp.countMain ident a => if r.resolveVar ident = some v then a else 0
    | _ => 0)).sum

/-- Sum of the amounts of the `count_si` calls in `ops` whose identifier
resolves to `v`. -/
def opsSiSum (r : Rosette) (ops : List RosOp) (v : String) : Int :=
  (ops.map (fun op => match op with
    | RosOp.countSmall ident a => if r.resolveVar ident = some v then a else 0
    | _ => 0)).sum

end Rosette

namespace Rosette

theorem count_spec (r : Rosette) (ident : String) (a : Int) (r' : Rosette)
    (h : r.count ident a = some r') :
    r'.TE = r.TE ∧ r'.TE_identifier = r.TE_identifier ∧
    r'.count_column = r.count_column ∧
    r'.current_sample = r.current_sample ∧
    r'.sample_number = r.sample_number ∧
    r'.column_number = r.column_number ∧
    r'.TE_count_variable = r.TE_count_variable ∧
    r'.TE_count_valid = r.TE_count_valid ∧
    r'.sirnaDicts = r.sirnaDicts ∧
    r'.purged = r.purged ∧
    ((r' = r ∧ r.resolveVar ident = none) ∨
     (∃ cv tot row row', r.resolveVar ident = some cv ∧
        r.TE_count.get? cv = some row ∧
        r.TE_count_total.get? cv = some tot ∧
        row'.length = row.length ∧
        r'.TE_count = r.TE_count.set cv row' ∧
        r'.TE_count_total = r.TE_count_total.set cv (tot + a))) := by
  unfold count at h
  cases hid : r.TE_identifier.get? ident with
  | none =>
    rw [hid] at h
    cases h
    exact ⟨rfl, rfl, rfl, rfl, rfl, rfl, rfl, rfl, rfl, rfl,
      Or.inl ⟨rfl, by simp [resolveVar, get_count_variable, hid]⟩⟩
  | some keys =>
    rw [hid] at h
    simp only [Option.bind_eq_bind, Option.bind_eq_some, Option.pure_def,
      Option.some.injEq] at h
    obtain ⟨k0, hk0, dd, hdd, cv, hcv, row, hrow, old, hold, row', hrow',
      tot, htot, hr'⟩ := h
    subst hr'
    refine ⟨rfl, rfl, rfl, rfl, rfl, rfl, rfl, rfl, rfl, rfl,
      Or.inr ⟨cv, tot, row, row', ?_, hrow, htot,
        pySetI_length row row' r.current_sample (old + a) hrow', rfl, rfl⟩⟩
    rw [List.get?_eq_getElem?] at hk0 hdd
    simp [resolveVar, get_count_variable, hid, hk0, hdd, hcv]

theorem count_si_spec (r : Rosette) (ident : String) (a : Int) (r' : Rosette)
    (h : r.count_si ident a = some r') :
    r'.TE = r.TE ∧ r'.TE_identifier = r.TE_identifier ∧
    r'.count_column = r.count_column ∧
    r'.current_sample = r.current_sample ∧
    r'.sample_number = r.sample_number ∧
    r'.column_number = r.column_number ∧
    r'.TE_count_variable = r.TE_count_variable ∧
    r'.TE_count_valid = r.TE_count_valid ∧
    r'.TE_count = r.TE_count ∧
    r'.TE_count_total = r.TE_count_total ∧
    r'.purged = r.purged ∧
    ((r' = r ∧ r.resolveVar ident = none) ∨
     (∃ cv tot row row' sd, r.resolveVar ident = some cv ∧
        r.sirnaDicts = some sd ∧
        sd.1.get? cv = some row ∧
        sd.2.get? cv = some tot ∧
        row'.length = row.length ∧
        r'.sirnaDicts = some (sd.1.set cv row', sd.2.set cv (tot + a)))) := by
  unfold count_si at h
  cases hid : r.TE_identifier.get? ident with
  | none =>
    rw [hid] at h
    cases h
    exact ⟨rfl, rfl, rfl, rfl, rfl, rfl, rfl, rfl, rfl, rfl, rfl,
      Or.inl ⟨rfl, by simp [resolveVar, get_count_variable, hid]⟩⟩
  | some keys =>
    rw [hid] at h
    simp only [Option.bind_eq_bind, Option.bind_eq_some, Option.pure_def,
      Option.some.injEq] at h
    obtain ⟨k0, hk0, dd, hdd, cv, hcv, sd, hsd, row, hrow, old, hold, row',
      hrow', tot, htot, hr'⟩ := h
    subst hr'
    refine ⟨rfl, rfl, rfl, rfl, rfl, rfl, rfl, rfl, rfl, rfl, rfl,
      Or.inr ⟨cv, tot, row, row', sd, ?_, hsd, hrow, htot,
        pySetI_length row row' r.current_sample (old + a) hrow', rfl⟩⟩
    rw [List.get?_eq_getElem?] at hk0 hdd
    simp [resolveVar, get_count_variable, hid, hk0, hdd, hcv]

end Rosette

namespace Rosette

theorem resetFoldN_spec (cs : Int) (items : List String) :
    ∀ (tc tc' : PyDict String (List Int)),
      items.foldlM (fun (tc : PyDict String (List Int)) item => do
        let row ← tc.get? item
        let row' ← pySetI row cs 0
        pure (tc.set item row')) tc = some tc' →
      ∀ v row', tc'.get? v = some row' →
        ∃ row, tc.get? v = some row ∧ row'.length = row.length := by
  induction items with
  | nil =>
    intro tc tc' h v row' hv
    cases h
    exact ⟨row', hv, rfl⟩
  | cons item rest ih =>
    intro tc tc' h v row' hv
    rw [List.foldlM_cons] at h
    simp only [Option.bind_eq_bind, Option.bind_eq_some, Option.pure_def,
      Option.some.injEq] at h
    obtain ⟨tc1, ⟨row0, hrow0, row0', hrow0', htc1⟩, hrest⟩ := h
    subst htc1
    obtain ⟨row1, hrow1, hlen1⟩ := ih _ _ hrest v row' hv
    rw [PyDict.get?_set] at hrow1
    by_cases hvi : v = item
    · rw [if_pos hvi] at hrow1
      cases hrow1
      subst hvi
      exact ⟨row0, hrow0,
        hlen1.trans (pySetI_length row0 row0' cs 0 hrow0')⟩
    · rw [if_neg hvi] at hrow1
      exact ⟨row1, hrow1, hlen1⟩

theorem resetFoldP_spec (cs : Int) (items : List String) :
    ∀ (st st' : PyDict String (List Int) × PyDict String (List Int)),
      items.foldlM (fun (st : PyDict String (List Int) ×
          PyDict String (List Int)) item => do
        let row ← st.1.get? item
        let row' ← pySetI row cs 0
        let srow ← st.2.get? item
        let srow' ← pySetI srow cs 0
        pure (st.1.set item row', st.2.set item srow')) st = some st' →
      (∀ v row', st'.1.get? v = some row' →
        ∃ row, st.1.get? v = some row ∧ row'.length = row.length) ∧
      (∀ v row', st'.2.get? v = some row' →
        ∃ row, st.2.get? v = some row ∧ row'.length = row.length) := by
  induction items with
  | nil =>
    intro st st' h
    cases h
    exact ⟨fun v row' hv => ⟨row', hv, rfl⟩, fun v row' hv => ⟨row', hv, rfl⟩⟩
  | cons item rest ih =>
    intro st st' h
    rw [List.foldlM_cons] at h
    simp only [Option.bind_eq_bind, Option.bind_eq_some, Option.pure_def,
      Option.some.injEq] at h
    obtain ⟨st1, ⟨row0, hrow0, row0', hrow0', srow0, hsrow0, srow0',
      hsrow0', hst1⟩, hrest⟩ := h
    subst hst1
    obtain ⟨ih1, ih2⟩ := ih _ _ hrest
    constructor
    · intro v row' hv
      obtain ⟨row1, hrow1, hlen1⟩ := ih1 v row' hv
      rw [PyDict.get?_set] at hrow1
      by_cases hvi : v = item
      · rw [if_pos hvi] at hrow1
        cases hrow1
        subst hvi
        exact ⟨row0, hrow0,
          hlen1.trans (pySetI_length row0 row0' cs 0 hrow0')⟩
      · rw [if_neg hvi] at hrow1
        exact ⟨row1, hrow1, hlen1⟩
    · intro v row' hv
      obtain ⟨row1, hrow1, hlen1⟩ := ih2 v row' hv
      rw [PyDict.get?_set] at hrow1
      by_cases hvi : v = item
      · rw [if_pos hvi] at hrow1
        cases hrow1
        subst hvi
        exact ⟨srow0, hsrow0,
          hlen1.trans (pySetI_length srow0 srow0' cs 0 hsrow0')⟩
      · rw [if_neg hvi] at hrow1
        exact ⟨row1, hrow1, hlen1⟩

theorem reset_spec (r r' : Rosette) (h : r.reset_count = some r') :
    r'.TE = r.TE ∧ r'.TE_identifier = r.TE_identifier ∧
    r'.count_column = r.count_column ∧
    r'.sample_number = r.sample_number ∧
    r'.column_number = r.column_number ∧
    r'.TE_count_variable = r.TE_count_variable ∧
    r'.TE_count_valid = r.TE_count_valid ∧
    r'.TE_count_total = r.TE_count_total ∧
    r'.purged = r.purged ∧
    r'.current_sample = r.current_sample + 1 ∧
    (∀ v, r'.sirnaTotalD v = r.sirnaTotalD v) ∧
    r'.sirnaDicts.isSome = r.sirnaDicts.isSome ∧
    (∀ v row', r'.TE_count.get? v = some row' →
      ∃ row, r.TE_count.get? v = some row ∧ row'.length = row.length) ∧
    (∀ sd', r'.sirnaDicts = some sd' →
      ∃ sd, r.sirnaDicts = some sd ∧ sd'.2 = sd.2 ∧
        (∀ v row', sd'.1.get? v = some row' →
          ∃ row, sd.1.get? v = some row ∧ row'.length = row.length)) := by
  unfold reset_count at h
  cases hsd : r.sirnaDicts with
  | none =>
    rw [hsd] at h
    simp only [Option.bind_eq_bind, Option.bind_eq_some, Option.pure_def,
      Option.some.injEq] at h
    obtain ⟨tc, hfold, hr'⟩ := h
    subst hr'
    refine ⟨rfl, rfl, rfl, rfl, rfl, rfl, rfl, rfl, rfl, rfl, ?_, ?_, ?_, ?_⟩
    · intro v; simp [sirnaTotalD, hsd]
    · simp [hsd]
    · exact resetFoldN_spec _ _ _ _ hfold
    · intro sd' hsd'
      simp [hsd] at hsd'
  | some sd =>
    rw [hsd] at h
    simp only [Option.bind_eq_bind, Option.bind_eq_some, Option.pure_def,
      Option.some.injEq] at h
    obtain ⟨st, hfold, hr'⟩ := h
    subst hr'
    obtain ⟨hp1, hp2⟩ := resetFoldP_spec _ _ _ _ hfold
    refine ⟨rfl, rfl, rfl, rfl, rfl, rfl, rfl, rfl, rfl, rfl, ?_, ?_, ?_, ?_⟩
    · intro v; simp [sirnaTotalD, hsd]
    · simp [hsd]
    · exact hp1
    · intro sd' hsd'
      simp only [Option.some.injEq] at hsd'
      subst hsd'
      refine ⟨sd, ?_, ?_, ?_⟩
      · rfl
      · rfl
      · exact hp2

end Rosette


namespace Rosette

/-- Contribution of one operation to a main lifetime total. -/
def opMainTerm (r : Rosette) (v : String) : RosOp → Int
  | RosOp.countMain ident a => if r.resolveVar ident = some v then a else 0
  | _ => 0

/-- Contribution of one operation to a small-RNA lifetime total. -/
def opSiTerm (r : Rosette) (v : String) : RosOp → Int
  | RosOp.countSmall ident a => if r.resolveVar ident = some v then a else 0
  | _ => 0

theorem add_spec (r : Rosette) (line : List String) (r' : Rosette)
    (h : r.add line = some r') :
    ∃ ident gval st,
      line.get? 0 = some ident ∧
      line.get? r.count_column = some gval ∧
      r'.sample_number = r.sample_number ∧
      r'.current_sample = r.current_sample ∧
      r'.count_column = r.count_column ∧
      r'.column_number = r.column_number ∧
      r'.TE_identifier = r.TE_identifier.set ident st ∧
      r'.TE_count_variable = r.TE_count_variable.set gval st ∧
      r'.TE_count = r.TE_count.set gval (List.replicate r.sample_number 0) ∧
      r'.TE_count_total = r.TE_count_total.set gval 0 ∧
      r'.TE_count_valid = r.TE_count_valid.set gval true ∧
      ((r.sirnaDicts = none ∧ r'.sirnaDicts = none) ∨
       (∃ sd, r.sirnaDicts = some sd ∧
         r'.sirnaDicts =
           some (sd.1.set gval (List.replicate r.sample_number 0),
                 sd.2.set gval 0))) := by
  unfold add at h
  cases hsd : r.sirnaDicts with
  | none =>
    rw [hsd] at h
    simp only [Option.bind_eq_bind, Option.bind_eq_some, Option.pure_def,
      Option.some.injEq] at h
    obtain ⟨ident, hident, gval, hgval, dd0, hdd0, st, hst, hr'⟩ := h
    subst hr'
    exact ⟨ident, gval, st.2, hident, hgval, rfl, rfl, rfl, rfl, rfl, rfl,
      rfl, rfl, rfl, Or.inl ⟨rfl, rfl⟩⟩
  | some sd =>
    rw [hsd] at h
    simp only [Option.bind_eq_bind, Option.bind_eq_some, Option.pure_def,
      Option.some.injEq] at h
    obtain ⟨ident, hident, gval, hgval, dd0, hdd0, st, hst, hr'⟩ := h
    subst hr'
    exact ⟨ident, gval, st.2, hident, hgval, rfl, rfl, rfl, rfl, rfl, rfl,
      rfl, rfl, rfl, Or.inr ⟨sd, rfl, rfl⟩⟩

theorem resolveVar_congr (r r' : Rosette)
    (hTE : r'.TE = r.TE) (hid : r'.TE_identifier = r.TE_identifier)
    (hcc : r'.count_column = r.count_column) (ident : String) :
    r'.resolveVar ident = r.resolveVar ident := by
  simp [resolveVar, get_count_variable, hTE, hid, hcc]

theorem sirnaTotalD_congr (r r' : Rosette)
    (h : r'.sirnaDicts = r.sirnaDicts) (v : String) :
    r'.sirnaTotalD v = r.sirnaTotalD v := by
  simp [sirnaTotalD, h]

theorem opsMainSum_cons (r : Rosette) (op : RosOp) (rest : List RosOp)
    (v : String) :
    opsMainSum r (op :: rest) v = opMainTerm r v op + opsMainSum r rest v := by
  cases op <;> simp [opsMainSum, opMainTerm, List.map_cons]

theorem opsSiSum_cons (r : Rosette) (op : RosOp) (rest : List RosOp)
    (v : String) :
    opsSiSum r (op :: rest) v = opSiTerm r v op + opsSiSum r rest v := by
  cases op <;> simp [opsSiSum, opSiTerm, List.map_cons]

theorem opMainTerm_congr (r r' : Rosette)
    (h : ∀ ident, r'.resolveVar ident = r.resolveVar ident)
    (v : String) (op : RosOp) : opMainTerm r' v op = opMainTerm r v op := by
  cases op <;> simp [opMainTerm, h]

theorem opSiTerm_congr (r r' : Rosette)
    (h : ∀ ident, r'.resolveVar ident = r.resolveVar ident)
    (v : String) (op : RosOp) : opSiTerm r' v op = opSiTerm r v op := by
  cases op <;> simp [opSiTerm, h]

theorem opsMainSum_congr (r r' : Rosette)
    (h : ∀ ident, r'.resolveVar ident = r.resolveVar ident)
    (ops : List RosOp) (v : String) :
    opsMainSum r' ops v = opsMainSum r ops v := by
  induction ops with
  | nil => rfl
  | cons op rest ih =>
    rw [opsMainSum_cons, opsMainSum_cons, ih, opMainTerm_congr r r' h]

theorem opsSiSum_congr (r r' : Rosette)
    (h : ∀ ident, r'.resolveVar ident = r.resolveVar ident)
    (ops : List RosOp) (v : String) :
    opsSiSum r' ops v = opsSiSum r ops v := by
  induction ops with
  | nil => rfl
  | cons op rest ih =>
    rw [opsSiSum_cons, opsSiSum_cons, ih, opSiTerm_congr r r' h]

theorem runOps_totals (ops : List RosOp) :
    ∀ (r0 r : Rosette), runOps r0 ops = some r →
      (∀ ident, r.resolveVar ident = r0.resolveVar ident) ∧
      ∀ v, r.TE_count_total.getD v 0 =
             r0.TE_count_total.getD v 0 + opsMainSum r0 ops v ∧
           r.sirnaTotalD v = r0.sirnaTotalD v + opsSiSum r0 ops v := by
  induction ops with
  | nil =>
    intro r0 r h
    cases h
    exact ⟨fun _ => rfl, fun v => by simp [opsMainSum, opsSiSum]⟩
  | cons op rest ih =>
    intro r0 r h
    rw [runOps, List.foldlM_cons] at h
    obtain ⟨r1, hstep, hrest⟩ := Option.bind_eq_some.mp h
    obtain ⟨hres_ih, htot_ih⟩ := ih r1 r hrest
    have key : (∀ x, r1.resolveVar x = r0.resolveVar x) ∧
        ∀ v, r1.TE_count_total.getD v 0 =
               r0.TE_count_total.getD v 0 + opMainTerm r0 v op ∧
             r1.sirnaTotalD v = r0.sirnaTotalD v + opSiTerm r0 v op := by
      cases op with
      | startSample =>
        obtain ⟨hTE, hid, hcc, _, _, _, _, hTT, _, _, hsir, _, _, _⟩ :=
          reset_spec r0 r1 hstep
        refine ⟨fun x => resolveVar_congr r0 r1 hTE hid hcc x, fun v => ?_⟩
        constructor
        · rw [hTT]; simp [opMainTerm]
        · rw [hsir v]; simp [opSiTerm]
      | countMain ident a =>
        obtain ⟨hTE, hid, hcc, _, _, _, _, _, hsd, _, hor⟩ :=
          count_spec r0 ident a r1 hstep
        refine ⟨fun x => resolveVar_congr r0 r1 hTE hid hcc x, fun v => ?_⟩
        rcases hor with ⟨heq, hresnone⟩ | ⟨cv, tot, row, row', hres, hrow,
            htot, hlen, hTC, hTT⟩
        · subst heq
          constructor
          · simp [opMainTerm, hresnone]
          · simp [opSiTerm]
        · constructor
          · rw [hTT, PyDict.getD_set]
            simp only [opMainTerm, hres]
            by_cases hvcv : v = cv
            · subst hvcv
              rw [if_pos rfl, if_pos rfl]
              simp [PyDict.getD, htot]
            · rw [if_neg hvcv,
                if_neg (fun hh => hvcv (Option.some.inj hh).symm)]
              simp
          · rw [sirnaTotalD_congr r0 r1 hsd v]; simp [opSiTerm]
      | countSmall ident a =>
        obtain ⟨hTE, hid, hcc, _, _, _, _, _, hTC, hTT, _, hor⟩ :=
          count_si_spec r0 ident a r1 hstep
        refine ⟨fun x => resolveVar_congr r0 r1 hTE hid hcc x, fun v => ?_⟩
        rcases hor with ⟨heq, hresnone⟩ | ⟨cv, tot, row, row', sd, hres, hsd,
            hrow, htot, hlen, hsd'⟩
        · subst heq
          constructor
          · simp [opMainTerm]
          · simp [opSiTerm, hresnone]
        · constructor
          · rw [hTT]; simp [opMainTerm]
          · have hl : r1.sirnaTotalD v =
                (sd.2.set cv (tot + a)).getD v 0 := by
              simp [sirnaTotalD, hsd']
            have hr : r0.sirnaTotalD v = sd.2.getD v 0 := by
              simp [sirnaTotalD, hsd]
            rw [hl, hr, PyDict.getD_set]
            simp only [opSiTerm, hres]
            by_cases hvcv : v = cv
            · subst hvcv
              rw [if_pos rfl, if_pos rfl]
              simp [PyDict.getD, htot]
            · rw [if_neg hvcv,
                if_neg (fun hh => hvcv (Option.some.inj hh).symm)]
              simp
    obtain ⟨hres1, hstep_tot⟩ := key
    refine ⟨fun x => (hres_ih x).trans (hres1 x), fun v => ?_⟩
    obtain ⟨h1, h2⟩ := htot_ih v
    obtain ⟨g1, g2⟩ := hstep_tot v
    rw [opsMainSum_cons, opsSiSum_cons]
    constructor
    · rw [h1, opsMainSum_congr r0 r1 hres1, g1]
      omega
    · rw [h2, opsSiSum_congr r0 r1 hres1, g2]
      omega

theorem load_totals_zero :
    ∀ (rows : List (List String)) (r0 r : Rosette),
      (∀ v, r0.TE_count_total.getD v 0 = 0 ∧ r0.sirnaTotalD v = 0) →
      rows.foldlM add r0 = some r →
      ∀ v, r.TE_count_total.getD v 0 = 0 ∧ r.sirnaTotalD v = 0 := by
  intro rows
  induction rows with
  | nil =>
    intro r0 r h0 h
    cases h
    exact h0
  | cons row rest ih =>
    intro r0 r h0 h
    rw [List.foldlM_cons] at h
    obtain ⟨r1, hstep, hrest⟩ := Option.bind_eq_some.mp h
    refine ih r1 r (fun v => ?_) hrest
    obtain ⟨ident, gval, st, _, _, _, _, _, _, _, _, _, hTT, _, hor⟩ :=
      add_spec r0 row r1 hstep
    constructor
    · rw [hTT, PyDict.getD_set]
      by_cases hvg : v = gval
      · simp [hvg]
      · simp [hvg, (h0 v).1]
    · rcases hor with ⟨hn, hn'⟩ | ⟨sd, hs, hs'⟩
      · simp [sirnaTotalD, hn']
      · simp only [sirnaTotalD, hs']
        rw [PyDict.getD_set]
        by_cases hvg : v = gval
        · simp [hvg]
        · rw [if_neg hvg]
          have := (h0 v).2
          simpa [sirnaTotalD, hs] using this

end Rosette

/-- Claim C1.  Lifetime totals are exactly the sums of the amounts of the
resolved count calls: for every loaded table and every successful
sequence of StartSample (`reset_count`), Count (`count`) and
CountSmallRNA (`count_si`) operations, `TE_count_total[v]` equals the sum
of the amounts of the `count` calls whose identifier resolves to `v`
(and the small-RNA lifetime total likewise for `count_si` calls), and
`reset_count` never changes any lifetime total. -/
theorem claim_C1 :
    (∀ (rows : List (List String)) (c : Int) (n : Nat) (si : Bool)
       (r0 : Rosette) (ops : List RosOp) (r : Rosette),
       Rosette.load rows c n si = some r0 →
       Rosette.runOps r0 ops = some r →
       ∀ v, r.TE_count_total.getD v 0 = Rosette.opsMainSum r0 ops v ∧
            r.sirnaTotalD v = Rosette.opsSiSum r0 ops v)
    ∧ (∀ r r' : Rosette, Rosette.reset_count r = some r' →
        r'.TE_count_total = r.TE_count_total ∧
        ∀ v, r'.sirnaTotalD v = r.sirnaTotalD v) := by
  constructor
  · intro rows c n si r0 ops r hload hrun v
    have hz : ∀ v, r0.TE_count_total.getD v 0 = 0 ∧ r0.sirnaTotalD v = 0 := by
      refine Rosette.load_totals_zero rows _ r0 (fun v => ?_) hload
      unfold Rosette.init
      constructor
      · simp [PyDict.getD]
      · cases si <;> simp [Rosette.sirnaTotalD, PyDict.getD]
    obtain ⟨hres, htot⟩ := Rosette.runOps_totals ops r0 r hrun
    obtain ⟨h1, h2⟩ := htot v
    rw [h1, h2, (hz v).1, (hz v).2]
    constructor
    · omega
    · omega
  · intro r r' h
    obtain ⟨_, _, _, _, _, _, _, hTT, _, _, hsir, _, _, _⟩ :=
      Rosette.reset_spec r r' h
    exact ⟨hTT, hsir⟩

/-- Witness for claim C1: a concrete two-row table, one sample, one reset
and two resolved count calls of amounts 2 and 3. -/
theorem claim_C1_witness :
    ∃ r0 r : Rosette,
      Rosette.load [["id1", "G"], ["id2", "S"]] 2 1 false = some r0 ∧
      Rosette.runOps r0 [RosOp.startSample, RosOp.countMain "id1" 2,
        RosOp.countMain "id1" 3] = some r ∧
      r.TE_count_total.getD "G" 0 =
        Rosette.opsMainSum r0 [RosOp.startSample, RosOp.countMain "id1" 2,
          RosOp.countMain "id1" 3] "G" :=
  ⟨_, _, rfl, rfl,
    (claim_C1.1 [["id1", "G"], ["id2", "S"]] 2 1 false _
      [RosOp.startSample, RosOp.countMain "id1" 2,
       RosOp.countMain "id1" 3] _ rfl rfl "G").1⟩

namespace Rosette

/-- Every stored per-sample vector (main, and small-RNA when enabled)
has length `n`. -/
def RowsLen (r : Rosette) (n : Nat) : Prop :=
  (∀ v row, r.TE_count.get? v = some row → row.length = n) ∧
  (∀ sd, r.sirnaDicts = some sd →
    ∀ v row, sd.1.get? v = some row → row.length = n)

theorem resetFoldN_isSome (cs : Int) (n : Nat) (h0 : 0 ≤ cs)
    (hn : cs < (n : Int)) :
    ∀ (items : List String) (tc : PyDict String (List Int)),
      (∀ v row, tc.get? v = some row → row.length = n) →
      (∀ item ∈ items, item ∈ tc.keys) →
      ∃ tc', items.foldlM (fun (tc : PyDict String (List Int)) item => do
        let row ← tc.get? item
        let row' ← pySetI row cs 0
        pure (tc.set item row')) tc = some tc' := by
  intro items
  induction items with
  | nil => intro tc _ _; exact ⟨tc, rfl⟩
  | cons item rest ih =>
    intro tc hlen hmem
    have hk : item ∈ tc.keys := hmem item (List.mem_cons_self item rest)
    obtain ⟨row, hrow⟩ :=
      Option.isSome_iff_exists.mp ((PyDict.get?_isSome_iff tc item).mpr hk)
    have hlr : row.length = n := hlen item row hrow
    have hset : pySetI row cs 0 = some (row.set cs.toNat 0) :=
      pySetI_isSome row cs 0 h0 (by rw [hlr]; exact hn)
    have hP1 : ∀ v row₁,
        (tc.set item (row.set cs.toNat 0)).get? v = some row₁ →
        row₁.length = n := by
      intro v row₁ hv
      rw [PyDict.get?_set] at hv
      by_cases hvi : v = item
      · rw [if_pos hvi] at hv
        cases hv
        simp [hlr]
      · rw [if_neg hvi] at hv
        exact hlen v row₁ hv
    have hM1 : ∀ x ∈ rest, x ∈ (tc.set item (row.set cs.toNat 0)).keys := by
      intro x hx
      rw [PyDict.keys_set_mem tc item _ hk]
      exact hmem x (List.mem_cons_of_mem _ hx)
    obtain ⟨tc', hfold⟩ := ih (tc.set item (row.set cs.toNat 0)) hP1 hM1
    refine ⟨tc', ?_⟩
    rw [List.foldlM_cons]
    simpa [hrow, hset] using hfold

theorem resetFoldP_isSome (cs : Int) (n : Nat) (h0 : 0 ≤ cs)
    (hn : cs < (n : Int)) :
    ∀ (items : List String)
      (st : PyDict String (List Int) × PyDict String (List Int)),
      (∀ v row, st.1.get? v = some row → row.length = n) →
      (∀ v row, st.2.get? v = some row → row.length = n) →
      (∀ item ∈ items, item ∈ st.1.keys) →
      (∀ item ∈ items, item ∈ st.2.keys) →
      ∃ st', items.foldlM (fun (st : PyDict String (List Int) ×
          PyDict String (List Int)) item => do
        let row ← st.1.get? item
        let row' ← pySetI row cs 0
        let srow ← st.2.get? item
        let srow' ← pySetI srow cs 0
        pure (st.1.set item row', st.2.set item srow')) st = some st' := by
  intro items
  induction items with
  | nil => intro st _ _ _ _; exact ⟨st, rfl⟩
  | cons item rest ih =>
    intro st hlen1 hlen2 hmem1 hmem2
    have hk1 : item ∈ st.1.keys := hmem1 item (List.mem_cons_self item rest)
    have hk2 : item ∈ st.2.keys := hmem2 item (List.mem_cons_self item rest)
    obtain ⟨row, hrow⟩ :=
      Option.isSome_iff_exists.mp ((PyDict.get?_isSome_iff st.1 item).mpr hk1)
    obtain ⟨srow, hsrow⟩ :=
      Option.isSome_iff_exists.mp ((PyDict.get?_isSome_iff st.2 item).mpr hk2)
    have hlr : row.length = n := hlen1 item row hrow
    have hls : srow.length = n := hlen2 item srow hsrow
    have hset : pySetI row cs 0 = some (row.set cs.toNat 0) :=
      pySetI_isSome row cs 0 h0 (by rw [hlr]; exact hn)
    have hsset : pySetI srow cs 0 = some (srow.set cs.toNat 0) :=
      pySetI_isSome srow cs 0 h0 (by rw [hls]; exact hn)
    have hP1 : ∀ v row₁,
        (st.1.set item (row.set cs.toNat 0)).get? v = some row₁ →
        row₁.length = n := by
      intro v row₁ hv
      rw [PyDict.get?_set] at hv
      by_cases hvi : v = item
      · rw [if_pos hvi] at hv
        cases hv
        simp [hlr]
      · rw [if_neg hvi] at hv
        exact hlen1 v row₁ hv
    have hP2 : ∀ v row₁,
        (st.2.set item (srow.set cs.toNat 0)).get? v = some row₁ →
        row₁.length = n := by
      intro v row₁ hv
      rw [PyDict.get?_set] at hv
      by_cases hvi : v = item
      · rw [if_pos hvi] at hv
        cases hv
        simp [hls]
      · rw [if_neg hvi] at hv
        exact hlen2 v row₁ hv
    have hM1 : ∀ x ∈ rest,
        x ∈ (st.1.set item (row.set cs.toNat 0)).keys := by
      intro x hx
      rw [PyDict.keys_set_mem st.1 item _ hk1]
      exact hmem1 x (List.mem_cons_of_mem _ hx)
    have hM2 : ∀ x ∈ rest,
        x ∈ (st.2.set item (srow.set cs.toNat 0)).keys := by
      intro x hx
      rw [PyDict.keys_set_mem st.2 item _ hk2]
      exact hmem2 x (List.mem_cons_of_mem _ hx)
    obtain ⟨st', hfold⟩ := ih
      (st.1.set item (row.set cs.toNat 0),
       st.2.set item (srow.set cs.toNat 0)) hP1 hP2 hM1 hM2
    refine ⟨st', ?_⟩
    rw [List.foldlM_cons]
    simpa [hrow, hset, hsrow, hsset] using hfold

theorem resetFoldN_none (cs : Int) (n : Nat) (hn : (n : Int) ≤ cs)
    (item : String) (rest : List String) (tc : PyDict String (List Int))
    (row : List Int) (hrow : tc.get? item = some row)
    (hlen : row.length = n) :
    (item :: rest).foldlM (fun (tc : PyDict String (List Int)) item => do
        let row ← tc.get? item
        let row' ← pySetI row cs 0
        pure (tc.set item row')) tc = none := by
  have h0 : 0 ≤ cs := le_trans (Int.natCast_nonneg n) hn
  have hset : pySetI row cs 0 = none :=
    pySetI_none row cs 0 h0 (by rw [hlen]; exact hn)
  rw [List.foldlM_cons]
  simp [hrow, hset]

theorem resetFoldP_none (cs : Int) (n : Nat) (hn : (n : Int) ≤ cs)
    (item : String) (rest : List String)
    (st : PyDict String (List Int) × PyDict String (List Int))
    (row : List Int) (hrow : st.1.get? item = some row)
    (hlen : row.length = n) :
    (item :: rest).foldlM (fun (st : PyDict String (List Int) ×
        PyDict String (List Int)) item => do
      let row ← st.1.get? item
      let row' ← pySetI row cs 0
      let srow ← st.2.get? item
      let srow' ← pySetI srow cs 0
      pure (st.1.set item row', st.2.set item srow')) st = none := by
  have h0 : 0 ≤ cs := le_trans (Int.natCast_nonneg n) hn
  have hset : pySetI row cs 0 = none :=
    pySetI_none row cs 0 h0 (by rw [hlen]; exact hn)
  rw [List.foldlM_cons]
  simp [hrow, hset]

theorem reset_count_isSome (r : Rosette) (n : Nat)
    (hP : RowsLen r n)
    (hmem : ∀ item ∈ r.TE_count_variable.keys, item ∈ r.TE_count.keys)
    (hmemS : ∀ sd, r.sirnaDicts = some sd →
      ∀ item ∈ r.TE_count_variable.keys, item ∈ sd.1.keys)
    (h0 : 0 ≤ r.current_sample + 1)
    (hn : r.current_sample + 1 < (n : Int)) :
    ∃ r', r.reset_count = some r' := by
  cases hsd : r.sirnaDicts with
  | none =>
    obtain ⟨tc', hfold⟩ := resetFoldN_isSome (r.current_sample + 1) n h0 hn
      r.TE_count_variable.keys r.TE_count hP.1 hmem
    refine ⟨{ r with current_sample := r.current_sample + 1, TE_count := tc' }, ?_⟩
    simp only [reset_count, hsd]
    rw [hfold]
    rfl
  | some sd =>
    obtain ⟨st', hfold⟩ := resetFoldP_isSome (r.current_sample + 1) n h0 hn
      r.TE_count_variable.keys (r.TE_count, sd.1) hP.1
      (hP.2 sd hsd) hmem (hmemS sd hsd)
    refine ⟨{ r with current_sample := r.current_sample + 1, TE_count := st'.1, sirnaDicts := some (st'.2, sd.2) }, ?_⟩
    simp only [reset_count, hsd]
    rw [hfold]
    rfl

theorem reset_count_none (r : Rosette) (n : Nat) (item : String)
    (rest : List String) (row : List Int)
    (hkeys : r.TE_count_variable.keys = item :: rest)
    (hrow : r.TE_count.get? item = some row)
    (hlen : row.length = n)
    (hn : (n : Int) ≤ r.current_sample + 1) :
    r.reset_count = none := by
  cases hsd : r.sirnaDicts with
  | none =>
    simp only [reset_count, hsd]
    rw [hkeys,
      resetFoldN_none (r.current_sample + 1) n hn item rest r.TE_count
        row hrow hlen]
    rfl
  | some sd =>
    simp only [reset_count, hsd]
    rw [hkeys,
      resetFoldP_none (r.current_sample + 1) n hn item rest
        (r.TE_count, sd.1) row hrow hlen]
    rfl

theorem applyOp_rowsLen (r r' : Rosette) (n : Nat) (op : RosOp)
    (hP : RowsLen r n) (h : applyOp r op = some r') : RowsLen r' n := by
  cases op with
  | startSample =>
    obtain ⟨_, _, _, _, _, _, _, _, _, _, _, _, hTC, hSD⟩ :=
      reset_spec r r' h
    constructor
    · intro v row' hv
      obtain ⟨row, hrow, hl⟩ := hTC v row' hv
      rw [hl]
      exact hP.1 v row hrow
    · intro sd' hsd' v row' hv
      obtain ⟨sd, hsd, _, hrows⟩ := hSD sd' hsd'
      obtain ⟨row, hrow, hl⟩ := hrows v row' hv
      rw [hl]
      exact hP.2 sd hsd v row hrow
  | countMain ident a =>
    obtain ⟨_, _, _, _, _, _, _, _, hsd, _, hor⟩ := count_spec r ident a r' h
    rcases hor with ⟨heq, _⟩ | ⟨cv, tot, row, row', _, hrow, _, hlen,
        hTC, _⟩
    · subst heq; exact hP
    · constructor
      · intro v row₁ hv
        rw [hTC, PyDict.get?_set] at hv
        by_cases hvcv : v = cv
        · rw [if_pos hvcv] at hv
          cases hv
          rw [hlen]
          exact hP.1 cv row hrow
        · rw [if_neg hvcv] at hv
          exact hP.1 v row₁ hv
      · intro sd' hsd' v row₁ hv
        rw [hsd] at hsd'
        exact hP.2 sd' hsd' v row₁ hv
  | countSmall ident a =>
    obtain ⟨_, _, _, _, _, _, _, _, hTC, _, _, hor⟩ := count_si_spec r ident a r' h
    rcases hor with ⟨heq, _⟩ | ⟨cv, tot, row, row', sd, _, hsd, hrow, _,
        hlen, hsd'⟩
    · subst heq; exact hP
    · constructor
      · intro v row₁ hv
        rw [hTC] at hv
        exact hP.1 v row₁ hv
      · intro sd₁ hsd₁ v row₁ hv
        rw [hsd'] at hsd₁
        cases hsd₁
        simp only at hv
        rw [PyDict.get?_set] at hv
        by_cases hvcv : v = cv
        · rw [if_pos hvcv] at hv
          cases hv
          rw [hlen]
          exact hP.2 sd hsd cv row hrow
        · rw [if_neg hvcv] at hv
          exact hP.2 sd hsd v row₁ hv

theorem runOps_rowsLen (ops : List RosOp) :
    ∀ (r r' : Rosette) (n : Nat), RowsLen r n → runOps r ops = some r' →
      RowsLen r' n := by
  induction ops with
  | nil =>
    intro r r' n hP h
    cases h
    exact hP
  | cons op rest ih =>
    intro r r' n hP h
    rw [runOps, List.foldlM_cons] at h
    obtain ⟨r1, hstep, hrest⟩ := Option.bind_eq_some.mp h
    exact ih r1 r' n (applyOp_rowsLen r r1 n op hP hstep) hrest

theorem load_rowsLen :
    ∀ (rows : List (List String)) (r0 r : Rosette) (n : Nat),
      r0.sample_number = n → RowsLen r0 n →
      rows.foldlM add r0 = some r →
      RowsLen r n ∧ r.sample_number = n ∧
        r.current_sample = r0.current_sample := by
  intro rows
  induction rows with
  | nil =>
    intro r0 r n hs hP h
    cases h
    exact ⟨hP, hs, rfl⟩
  | cons row rest ih =>
    intro r0 r n hs hP h
    rw [List.foldlM_cons] at h
    obtain ⟨r1, hstep, hrest⟩ := Option.bind_eq_some.mp h
    obtain ⟨ident, gval, st, _, _, hsn, hcs, _, _, _, _, hTC, _, _, hor⟩ :=
      add_spec r0 row r1 hstep
    have hP1 : RowsLen r1 n := by
      constructor
      · intro v row₁ hv
        rw [hTC, PyDict.get?_set] at hv
        by_cases hvg : v = gval
        · rw [if_pos hvg] at hv
          cases hv
          simp [hs]
        · rw [if_neg hvg] at hv
          exact hP.1 v row₁ hv
      · rcases hor with ⟨hn0, hn1⟩ | ⟨sd, hsd, hsd'⟩
        · intro sd' hsd'
          rw [hn1] at hsd'
          cases hsd'
        · intro sd' hsd₁ v row₁ hv
          rw [hsd'] at hsd₁
          cases hsd₁
          simp only at hv
          rw [PyDict.get?_set] at hv
          by_cases hvg : v = gval
          · rw [if_pos hvg] at hv
            cases hv
            simp [hs]
          · rw [if_neg hvg] at hv
            exact hP.2 sd hsd v row₁ hv
    obtain ⟨hA, hB, hC⟩ := ih r1 r n (hsn.trans hs) hP1 hrest
    exact ⟨hA, hB, hC.trans hcs⟩

end Rosette

/-- Claim C10.  Per-sample count vectors are created with length
`sample_number` and no operation changes their length; `reset_count`
increments the sample cursor by one from −1, succeeds while the zeroed
index stays below `sample_number`, and fails with an out-of-range slot
access as soon as the index reaches `sample_number` (the
`sample_number + 1`-th call) provided at least one grouping variable
exists. -/
theorem claim_C10 :
    (∀ (rows : List (List String)) (c : Int) (n : Nat) (si : Bool)
       (r : Rosette), Rosette.load rows c n si = some r →
       Rosette.RowsLen r n ∧ r.sample_number = n ∧ r.current_sample = -1)
    ∧ (∀ (ops : List RosOp) (r r' : Rosette) (n : Nat),
        Rosette.RowsLen r n → Rosette.runOps r ops = some r' →
        Rosette.RowsLen r' n)
    ∧ (∀ r r' : Rosette, Rosette.reset_count r = some r' →
        r'.current_sample = r.current_sample + 1)
    ∧ (∀ (r : Rosette) (n : Nat), Rosette.RowsLen r n →
        (∀ item ∈ r.TE_count_variable.keys, item ∈ r.TE_count.keys) →
        (∀ sd, r.sirnaDicts = some sd →
          ∀ item ∈ r.TE_count_variable.keys, item ∈ sd.1.keys) →
        0 ≤ r.current_sample + 1 → r.current_sample + 1 < (n : Int) →
        ∃ r', Rosette.reset_count r = some r')
    ∧ (∀ (r : Rosette) (n : Nat) (item : String) (rest : List String)
        (row : List Int),
        r.TE_count_variable.keys = item :: rest →
        r.TE_count.get? item = some row → row.length = n →
        (n : Int) ≤ r.current_sample + 1 →
        Rosette.reset_count r = none) := by
  refine ⟨?_, ?_, ?_, ?_, ?_⟩
  · intro rows c n si r hload
    have hinit : Rosette.RowsLen (Rosette.init rows c n si) n := by
      constructor
      · intro v row hv
        simp [Rosette.init, PyDict.get?, PyDict.empty, PyDict.lget?] at hv
      · intro sd hsd v row hv
        cases si <;> simp [Rosette.init] at hsd
        rw [← hsd] at hv
        simp [PyDict.get?, PyDict.empty, PyDict.lget?] at hv
    obtain ⟨hA, hB, hC⟩ :=
      Rosette.load_rowsLen rows (Rosette.init rows c n si) r n rfl hinit hload
    exact ⟨hA, hB, hC⟩
  · intro ops r r' n hP h
    exact Rosette.runOps_rowsLen ops r r' n hP h
  · intro r r' h
    obtain ⟨_, _, _, _, _, _, _, _, _, hcs, _, _, _, _⟩ :=
      Rosette.reset_spec r r' h
    exact hcs
  · intro r n hP hmem hmemS h0 hn
    exact Rosette.reset_count_isSome r n hP hmem hmemS h0 hn
  · intro r n item rest row hkeys hrow hlen hn
    exact Rosette.reset_count_none r n item rest row hkeys hrow hlen hn

/-- The rosette state loaded from the one-row table used in the C10
witness. -/
def c10r0 : Rosette :=
  { sample_number := 1
    current_sample := -1
    count_column := 1
    column_number := 2
    TE := [{ forward_dict := { entries := [] },
             reverse_dict := { entries := [] } },
           { forward_dict := { entries := [(0, "G")] },
             reverse_dict := { entries := [("G", 0)] } }]
    TE_identifier := { entries := [("id1", [0])] }
    TE_count_variable := { entries := [("G", [0])] }
    TE_count := { entries := [("G", [0])] }
    TE_count_total := { entries := [("G", 0)] }
    TE_count_valid := { entries := [("G", true)] }
    sirnaDicts := none
    purged := false }

/-- The state after the first reset in the C10 witness. -/
def c10r1 : Rosette := { c10r0 with current_sample := 0 }

/-- Witness for claim C10: with one sample, the first `reset_count`
succeeds and moves the cursor to 0, and the second fails out of range. -/
theorem claim_C10_witness :
    Rosette.load [["id1", "G"]] 2 1 false = some c10r0 ∧
    Rosette.reset_count c10r0 = some c10r1 ∧ c10r1.current_sample = 0 ∧
    Rosette.reset_count c10r1 = none := by
  refine ⟨by decide, by decide, ?_, ?_⟩
  · exact (claim_C10.2.2.1 c10r0 c10r1 (by decide)).trans (by decide)
  · exact claim_C10.2.2.2.2 c10r1 1 "G" [] [0] (by decide) (by decide)
      (by decide) (by decide)

namespace Rosette

theorem addLoop_isSome (cc : Nat) (line : List String) :
    ∀ (idxs : List Nat) (st : List Double_dict × List Nat),
      (∀ i ∈ idxs, i + 1 ≠ cc → i + 1 < line.length ∧ i < st.1.length) →
      ∃ st', addLoop cc line idxs st = some st' ∧
        st'.1.length = st.1.length := by
  intro idxs
  induction idxs with
  | nil => intro st _; exact ⟨st, rfl, rfl⟩
  | cons i rest ih =>
    intro st hcond
    by_cases hicc : i + 1 = cc
    · have hstep : addLoop cc line (i :: rest) st = addLoop cc line rest st := by
        rw [addLoop, List.foldlM_cons, if_neg (not_not_intro hicc)]
        rfl
      rw [hstep]
      exact ih st (fun j hj hne => hcond j (List.mem_cons_of_mem i hj) hne)
    · obtain ⟨hl, ht⟩ := hcond i (List.mem_cons_self i rest) hicc
      have hline : line.get? (i + 1) = some (line.get ⟨i + 1, hl⟩) := by
        rw [List.get?_eq_getElem?]
        exact List.getElem?_eq_getElem hl
      have hTE : List.get? st.1 i = some (st.1.get ⟨i, ht⟩) := by
        rw [List.get?_eq_getElem?]
        exact List.getElem?_eq_getElem ht
      have hstep : addLoop cc line (i :: rest) st =
          addLoop cc line rest
            (st.1.set i ((st.1.get ⟨i, ht⟩).add (line.get ⟨i + 1, hl⟩)).2,
             st.2 ++ [((st.1.get ⟨i, ht⟩).add (line.get ⟨i + 1, hl⟩)).1]) := by
        rw [addLoop, List.foldlM_cons, if_pos hicc, hline, hTE]
        rfl
      rw [hstep]
      obtain ⟨st', hst', hlen'⟩ := ih
        (st.1.set i ((st.1.get ⟨i, ht⟩).add (line.get ⟨i + 1, hl⟩)).2,
         st.2 ++ [((st.1.get ⟨i, ht⟩).add (line.get ⟨i + 1, hl⟩)).1])
        (fun j hj hne => by
          obtain ⟨h1, h2⟩ := hcond j (List.mem_cons_of_mem i hj) hne
          exact ⟨h1, by simpa using h2⟩)
      exact ⟨st', hst', by simpa using hlen'⟩

theorem addLoop_line_bounds (cc : Nat) (line : List String) :
    ∀ (idxs : List Nat) (st st' : List Double_dict × List Nat),
      addLoop cc line idxs st = some st' →
      ∀ j ∈ idxs, j + 1 ≠ cc → j + 1 < line.length := by
  intro idxs
  induction idxs with
  | nil => intro st st' _ j hj; simp at hj
  | cons i rest ih =>
    intro st st' h j hj hne
    rw [addLoop, List.foldlM_cons] at h
    obtain ⟨st1, hstep, hrest⟩ := Option.bind_eq_some.mp h
    by_cases hicc : i + 1 = cc
    · rw [if_neg (not_not_intro hicc)] at hstep
      cases hstep
      rcases List.mem_cons.mp hj with hj | hj
      · exact absurd (hj ▸ hicc) hne
      · exact ih st st' hrest j hj hne
    · rw [if_pos hicc] at hstep
      simp only [Option.bind_eq_bind, Option.bind_eq_some, Option.pure_def,
        Option.some.injEq] at hstep
      obtain ⟨v, hv, dd, hdd, hst1⟩ := hstep
      rcases List.mem_cons.mp hj with hj | hj
      · subst hj
        by_contra hge
        rw [List.get?_eq_getElem?, List.getElem?_eq_none (by omega)] at hv
        cases hv
      · subst hst1
        exact ih _ st' hrest j hj hne

theorem addKeysStep_isSome (r : Rosette) (line : List String)
    (st0 : List Double_dict × List Nat)
    (hcc : r.count_column = 1)
    (hlen : r.column_number ≤ line.length)
    (hTE : r.column_number ≤ st0.1.length) :
    ∃ st, addKeysStep r line st0 = some st := by
  unfold addKeysStep
  by_cases hb : r.column_number - 1 > 1
  · rw [if_pos hb]
    obtain ⟨st, hst, _⟩ := addLoop_isSome r.count_column line
      (List.range (r.column_number - 1)) st0 (fun i hi hne => by
        rw [List.mem_range] at hi
        constructor
        · omega
        · omega)
    exact ⟨st, hst⟩
  · rw [if_neg hb]
    exact ⟨st0, rfl⟩

end Rosette

/-- Counterexample to claim C6: the annotation row `["id"]` has fewer
columns (1) than needed for the grouping column, and loading it raises
(IndexError, modelled by `none`) instead of processing it with
defaults. -/
theorem claim_C6_cex :
    (["id"] : List String).length = 1 ∧
    Rosette.load [["a", "b", "c"], ["id"]] 2 1 false = none := by
  constructor
  · rfl
  · decide

/-- Claim C6 (amended): a row with at least `column_number` columns is
processed by `Rosette.add` without failure (extra trailing columns are
ignored by the accesses), but a row with fewer than `column_number`
columns makes `add` raise IndexError (`none`): there is no
default-filling of missing trailing columns. -/
theorem claim_C6 (r : Rosette) (line : List String)
    (hcc : r.count_column = 1) (hN : 2 ≤ r.column_number)
    (hTE : r.column_number ≤ r.TE.length) :
    (r.column_number ≤ line.length → (r.add line).isSome) ∧
    (line.length < r.column_number → r.add line = none) := by
  constructor
  · intro hlen
    have h0 : line.get? 0 = some (line.get ⟨0, by omega⟩) := by
      rw [List.get?_eq_getElem?]
      exact List.getElem?_eq_getElem (by omega)
    have h1 : line.get? r.count_column =
        some (line.get ⟨r.count_column, by omega⟩) := by
      rw [List.get?_eq_getElem?]
      exact List.getElem?_eq_getElem (by omega)
    have hdd : r.TE.get? r.count_column =
        some (r.TE.get ⟨r.count_column, by omega⟩) := by
      rw [List.get?_eq_getElem?]
      exact List.getElem?_eq_getElem (by omega)
    obtain ⟨st, hst⟩ := Rosette.addKeysStep_isSome r line
      (r.TE.set r.count_column
        ((r.TE.get ⟨r.count_column, by omega⟩).add
          (line.get ⟨r.count_column, by omega⟩)).2,
       [((r.TE.get ⟨r.count_column, by omega⟩).add
          (line.get ⟨r.count_column, by omega⟩)).1])
      hcc hlen (by simpa using hTE)
    unfold Rosette.add
    rw [h0, h1, hdd]
    simp only [Option.bind_eq_bind, Option.some_bind]
    rw [hst]
    simp only [Option.some_bind]
    cases r.sirnaDicts <;> simp
  · intro hshort
    cases hadd : r.add line with
    | none => rfl
    | some r' =>
      exfalso
      unfold Rosette.add at hadd
      simp only [Option.bind_eq_bind, Option.bind_eq_some] at hadd
      obtain ⟨ident, hident, gval, hgval, dd0, hdd0, st, hst, _⟩ := hadd
      have hl0 : 0 < line.length := by
        by_contra hge
        rw [List.get?_eq_getElem?, List.getElem?_eq_none (by omega)] at hident
        cases hident
      have hl1 : r.count_column < line.length := by
        by_contra hge
        rw [List.get?_eq_getElem?, List.getElem?_eq_none (by omega)] at hgval
        cases hgval
      have hN3 : 2 < r.column_number := by omega
      unfold Rosette.addKeysStep at hst
      rw [if_pos (by omega)] at hst
      have hb := Rosette.addLoop_line_bounds r.count_column line
        (List.range (r.column_number - 1)) _ _ hst (line.length - 1)
        (by rw [List.mem_range]; omega) (by omega)
      omega

/-- Witness for claim C6 at a concrete state and rows: a 2-column row is
accepted by the 2-column table, a 1-column row is rejected. -/
theorem claim_C6_witness :
    ((Rosette.init [["id1", "G"]] 2 1 false).add ["id1", "G"]).isSome ∧
    (Rosette.init [["id1", "G"]] 2 1 false).add ["id"] = none := by
  constructor
  · exact (claim_C6 (Rosette.init [["id1", "G"]] 2 1 false) ["id1", "G"]
      (by decide) (by decide) (by decide)).1 (by decide)
  · exact (claim_C6 (Rosette.init [["id1", "G"]] 2 1 false) ["id"]
      (by decide) (by decide) (by decide)).2 (by decide)

/-- Counterexample to claim C8: immediately after the single row of this
table is loaded — no purge has run — the grouping variable "G" is
already marked valid, not invalid. -/
theorem claim_C8_cex :
    (Rosette.load [["id1", "G"]] 2 1 false).map
      (fun r => r.TE_count_valid.getD "G" false) = some true ∧
    true ≠ false := by
  constructor
  · decide
  · decide

/-- Claim C8 (amended): every grouping variable starts VALID — right
after `Rosette.add` processes a row, and before any purge, the validity
flag of the row's grouping variable is `true` (it is `Rosette.purge`
that later invalidates all and revalidates the matched ones). -/
theorem claim_C8 (r : Rosette) (line : List String) (r' : Rosette)
    (h : r.add line = some r') :
    ∃ gval, line.get? r.count_column = some gval ∧
      r'.TE_count_valid.get? gval = some true := by
  obtain ⟨ident, gval, st, _, hgval, _, _, _, _, _, _, _, _, hvalid, _⟩ :=
    Rosette.add_spec r line r' h
  refine ⟨gval, hgval, ?_⟩
  rw [hvalid]
  exact PyDict.get?_set_self r.TE_count_valid gval true

/-- Witness for claim C8 at a concrete add. -/
theorem claim_C8_witness :
    ∃ gval, (["id1", "G"] : List String).get?
        (Rosette.init [["id1", "G"]] 2 1 false).count_column = some gval ∧
      c10r0.TE_count_valid.get? gval = some true :=
  claim_C8 (Rosette.init [["id1", "G"]] 2 1 false) ["id1", "G"] c10r0
    (by decide)

namespace Rosette

theorem purgeFold_spec (r : Rosette) :
    ∀ (flines : List String) (D D' : PyDict String Bool),
      flines.foldlM (fun D line => do
        let c ← pyStrGet line 0
        if c = '>' then do
          let tok ← (pySplit line).get? 0
          match r.get_count_variable (pyStrTail tok) with
          | none => none
          | some none => pure D
          | some (some cv) => pure (D.set cv true)
        else pure D) D = some D' →
      ∀ v, D'.getD v false = true ↔
        (D.getD v false = true ∨
         ∃ line ∈ flines, pyStrGet line 0 = some '>' ∧
           ∃ tok, (pySplit line).get? 0 = some tok ∧
             r.resolveVar (pyStrTail tok) = some v) := by
  intro flines
  induction flines with
  | nil =>
    intro D D' h v
    cases h
    simp
  | cons line rest ih =>
    intro D D' h v
    rw [List.foldlM_cons] at h
    obtain ⟨D1, hstep, hrest⟩ := Option.bind_eq_some.mp h
    have hih := ih D1 D' hrest v
    simp only [Option.bind_eq_bind, Option.bind_eq_some] at hstep
    obtain ⟨c, hc, hstep⟩ := hstep
    by_cases hgt : c = '>'
    · subst hgt
      rw [if_pos rfl] at hstep
      simp only [Option.bind_eq_bind, Option.bind_eq_some] at hstep
      obtain ⟨tok, htok, hstep⟩ := hstep
      cases hgcv : r.get_count_variable (pyStrTail tok) with
      | none =>
        rw [hgcv] at hstep
        cases hstep
      | some o =>
        cases o with
        | none =>
          rw [hgcv] at hstep
          simp only [Option.pure_def, Option.some.injEq] at hstep
          subst hstep
          rw [hih]
          constructor
          · rintro (hD | hex)
            · exact Or.inl hD
            · obtain ⟨l, hl, hrest'⟩ := hex
              exact Or.inr ⟨l, List.mem_cons_of_mem line hl, hrest'⟩
          · rintro (hD | ⟨l, hl, hhd, tok', htok', hres⟩)
            · exact Or.inl hD
            · rcases List.mem_cons.mp hl with hl | hl
              · subst hl
                rw [htok] at htok'
                cases htok'
                rw [resolveVar, hgcv] at hres
                cases hres
              · exact Or.inr ⟨l, hl, hhd, tok', htok', hres⟩
        | some cv =>
          rw [hgcv] at hstep
          simp only [Option.pure_def, Option.some.injEq] at hstep
          subst hstep
          rw [hih, PyDict.getD_set]
          constructor
          · rintro (hD | hex)
            · by_cases hvcv : v = cv
              · rw [if_pos hvcv] at hD
                refine Or.inr ⟨line, List.mem_cons_self line rest, hc,
                  tok, htok, ?_⟩
                rw [resolveVar, hgcv, hvcv]
              · rw [if_neg hvcv] at hD
                exact Or.inl hD
            · obtain ⟨l, hl, hrest'⟩ := hex
              exact Or.inr ⟨l, List.mem_cons_of_mem line hl, hrest'⟩
          · rintro (hD | ⟨l, hl, hhd, tok', htok', hres⟩)
            · by_cases hvcv : v = cv
              · exact Or.inl (by rw [if_pos hvcv])
              · exact Or.inl (by rw [if_neg hvcv]; exact hD)
            · rcases List.mem_cons.mp hl with hl | hl
              · subst hl
                rw [htok] at htok'
                cases htok'
                rw [resolveVar, hgcv] at hres
                cases hres
                exact Or.inl (by rw [if_pos rfl])
              · exact Or.inr ⟨l, hl, hhd, tok', htok', hres⟩
    · rw [if_neg hgt] at hstep
      simp only [Option.pure_def, Option.some.injEq] at hstep
      subst hstep
      rw [hih]
      constructor
      · rintro (hD | hex)
        · exact Or.inl hD
        · obtain ⟨l, hl, hrest'⟩ := hex
          exact Or.inr ⟨l, List.mem_cons_of_mem line hl, hrest'⟩
      · rintro (hD | ⟨l, hl, hhd, tok', htok', hres⟩)
        · exact Or.inl hD
        · rcases List.mem_cons.mp hl with hl | hl
          · subst hl
            rw [hc] at hhd
            cases hhd
            exact absurd rfl hgt
          · exact Or.inr ⟨l, hl, hhd, tok', htok', hres⟩

theorem purge_spec (r : Rosette) (flines : List String) (r' : Rosette)
    (h : r.purge flines = some r') :
    r'.TE = r.TE ∧ r'.TE_identifier = r.TE_identifier ∧
    r'.count_column = r.count_column ∧
    r'.current_sample = r.current_sample ∧
    r'.sample_number = r.sample_number ∧
    r'.column_number = r.column_number ∧
    r'.TE_count_variable = r.TE_count_variable ∧
    r'.TE_count = r.TE_count ∧
    r'.TE_count_total = r.TE_count_total ∧
    r'.sirnaDicts = r.sirnaDicts ∧
    r'.purged = true ∧
    (∀ v, r'.TE_count_valid.getD v false = true ↔
      ∃ line ∈ flines, pyStrGet line 0 = some '>' ∧
        ∃ tok, (pySplit line).get? 0 = some tok ∧
          r.resolveVar (pyStrTail tok) = some v) := by
  unfold purge at h
  simp only [Option.bind_eq_bind, Option.bind_eq_some, Option.pure_def,
    Option.some.injEq] at h
  obtain ⟨validF, hfold, hr'⟩ := h
  subst hr'
  refine ⟨rfl, rfl, rfl, rfl, rfl, rfl, rfl, rfl, rfl, rfl, rfl, fun v => ?_⟩
  have hbase : (r.TE_count_valid.mapVals fun _ _ => false).getD v false =
      false := by
    simp only [PyDict.getD, PyDict.get?_mapVals]
    cases r.TE_count_valid.get? v <;> simp
  rw [purgeFold_spec r flines _ validF hfold v, hbase]
  simp

end Rosette

namespace Rosette

theorem writeFoldN_spec (r : Rosette) :
    ∀ (items : List String) (acc res : List (List String)),
      items.foldlM (fun acc item => do
        let valid ← r.TE_count_valid.get? item
        if valid then do
          let l1 ← r.writeLineWith r.TE_count r.TE_count_total item
          pure (acc ++ [l1])
        else pure acc) acc = some res →
      ∃ tail, (items.filter
          (fun it => r.TE_count_valid.getD it false)).mapM
          (r.writeLineWith r.TE_count r.TE_count_total) = some tail ∧
        res = acc ++ tail := by
  intro items
  induction items with
  | nil =>
    intro acc res h
    cases h
    exact ⟨[], rfl, by simp⟩
  | cons item rest ih =>
    intro acc res h
    rw [List.foldlM_cons] at h
    obtain ⟨acc1, hstep, hrest⟩ := Option.bind_eq_some.mp h
    simp only [Option.bind_eq_bind, Option.bind_eq_some] at hstep
    obtain ⟨b, hb, hstep⟩ := hstep
    have hvB : r.TE_count_valid.getD item false = b := by
      simp [PyDict.getD, hb]
    cases b with
    | true =>
      rw [if_pos rfl] at hstep
      simp only [Option.bind_eq_bind, Option.bind_eq_some, Option.pure_def,
        Option.some.injEq] at hstep
      obtain ⟨l1, hl1, hacc1⟩ := hstep
      subst hacc1
      obtain ⟨tail, hmapM, hres⟩ := ih (acc ++ [l1]) res hrest
      refine ⟨l1 :: tail, ?_, ?_⟩
      · rw [List.filter_cons, if_pos (by rw [hvB])]
        rw [List.mapM_cons, hl1, hmapM]
        rfl
      · rw [hres, List.append_assoc]
        rfl
    | false =>
      rw [if_neg (by simp)] at hstep
      simp only [Option.pure_def, Option.some.injEq] at hstep
      subst hstep
      obtain ⟨tail, hmapM, hres⟩ := ih acc res hrest
      refine ⟨tail, ?_, hres⟩
      rw [List.filter_cons, if_neg (by rw [hvB]; exact Bool.false_ne_true)]
      exact hmapM

theorem writeFoldP_spec (r : Rosette)
    (sd : PyDict String (List Int) × PyDict String Int) :
    ∀ (items : List String)
      (acc res : List (List String) × List (List String)),
      items.foldlM (fun acc item => do
        let valid ← r.TE_count_valid.get? item
        if valid then do
          let l1 ← r.writeLineWith r.TE_count r.TE_count_total item
          let l2 ← r.writeLineWith sd.1 sd.2 item
          pure (acc.1 ++ [l1], acc.2 ++ [l2])
        else pure acc) acc = some res →
      ∃ t1 t2, (items.filter
          (fun it => r.TE_count_valid.getD it false)).mapM
          (r.writeLineWith r.TE_count r.TE_count_total) = some t1 ∧
        (items.filter
          (fun it => r.TE_count_valid.getD it false)).mapM
          (r.writeLineWith sd.1 sd.2) = some t2 ∧
        res.1 = acc.1 ++ t1 ∧ res.2 = acc.2 ++ t2 := by
  intro items
  induction items with
  | nil =>
    intro acc res h
    cases h
    exact ⟨[], [], rfl, rfl, by simp, by simp⟩
  | cons item rest ih =>
    intro acc res h
    rw [List.foldlM_cons] at h
    obtain ⟨acc1, hstep, hrest⟩ := Option.bind_eq_some.mp h
    simp only [Option.bind_eq_bind, Option.bind_eq_some] at hstep
    obtain ⟨b, hb, hstep⟩ := hstep
    have hvB : r.TE_count_valid.getD item false = b := by
      simp [PyDict.getD, hb]
    cases b with
    | true =>
      rw [if_pos rfl] at hstep
      simp only [Option.bind_eq_bind, Option.bind_eq_some, Option.pure_def,
        Option.some.injEq] at hstep
      obtain ⟨l1, hl1, l2, hl2, hacc1⟩ := hstep
      subst hacc1
      obtain ⟨t1, t2, hm1, hm2, hres1, hres2⟩ := ih _ res hrest
      refine ⟨l1 :: t1, l2 :: t2, ?_, ?_, ?_, ?_⟩
      · rw [List.filter_cons, if_pos (by rw [hvB])]
        rw [List.mapM_cons, hl1, hm1]
        rfl
      · rw [List.filter_cons, if_pos (by rw [hvB])]
        rw [List.mapM_cons, hl2, hm2]
        rfl
      · rw [hres1]
        simp [List.append_assoc]
      · rw [hres2]
        simp [List.append_assoc]
    | false =>
      rw [if_neg (by simp)] at hstep
      simp only [Option.pure_def, Option.some.injEq] at hstep
      subst hstep
      obtain ⟨t1, t2, hm1, hm2, hres1, hres2⟩ := ih acc res hrest
      refine ⟨t1, t2, ?_, ?_, hres1, hres2⟩
      · rw [List.filter_cons, if_neg (by rw [hvB]; exact Bool.false_ne_true)]
        exact hm1
      · rw [List.filter_cons, if_neg (by rw [hvB]; exact Bool.false_ne_true)]
        exact hm2

theorem write_filter (r : Rosette)
    (out : List (List String) × List (List String)) (h : r.write = some out) :
    ((pySortedBy (fun k => r.TE_count_variable.getD k [])
        r.TE_count_variable.keys).filter
        (fun it => r.TE_count_valid.getD it false)).mapM
      (r.writeLineWith r.TE_count r.TE_count_total) = some out.1 ∧
    (match r.sirnaDicts with
     | some sd =>
       ((pySortedBy (fun k => r.TE_count_variable.getD k [])
           r.TE_count_variable.keys).filter
           (fun it => r.TE_count_valid.getD it false)).mapM
         (r.writeLineWith sd.1 sd.2) = some out.2
     | none => out.2 = []) := by
  unfold write at h
  cases hsd : r.sirnaDicts with
  | none =>
    rw [hsd] at h
    simp only [Option.bind_eq_bind, Option.bind_eq_some, Option.pure_def,
      Option.some.injEq] at h
    obtain ⟨ls, hfold, hout⟩ := h
    obtain ⟨tail, hmapM, hres⟩ := writeFoldN_spec r _ [] ls hfold
    subst hout
    constructor
    · simp only [List.nil_append] at hres
      rw [hmapM, hres]
    · rfl
  | some sd =>
    rw [hsd] at h
    obtain ⟨t1, t2, hm1, hm2, hr1, hr2⟩ := writeFoldP_spec r sd _ ([], []) out h
    simp only [List.nil_append] at hr1 hr2
    constructor
    · rw [hm1, hr1]
    · show ((pySortedBy (fun k => r.TE_count_variable.getD k [])
          r.TE_count_variable.keys).filter
          (fun it => r.TE_count_valid.getD it false)).mapM
        (r.writeLineWith sd.1 sd.2) = some out.2
      rw [hm2, hr2]

end Rosette

/-- Claim C2.  After `Rosette.purge` runs on a sequence file, a grouping
variable is valid iff at least one header line (starting with the marker
character) has a first whitespace-delimited token which, with the marker
stripped, resolves through the identifier-to-keys relation to that
variable; and `Rosette.write` emits lines exactly for the valid grouping
variables (in both output files), so variables with zero matching
headers appear in no output file. -/
theorem claim_C2 (r : Rosette) (flines : List String) (r' : Rosette)
    (h : Rosette.purge r flines = some r') :
    (∀ v, r'.TE_count_valid.getD v false = true ↔
      ∃ line ∈ flines, pyStrGet line 0 = some '>' ∧
        ∃ tok, (pySplit line).get? 0 = some tok ∧
          Rosette.resolveVar r (pyStrTail tok) = some v)
    ∧ (∀ out, r'.write = some out →
        ((pySortedBy (fun k => r'.TE_count_variable.getD k [])
            r'.TE_count_variable.keys).filter
            (fun it => r'.TE_count_valid.getD it false)).mapM
          (r'.writeLineWith r'.TE_count r'.TE_count_total) = some out.1 ∧
        (match r'.sirnaDicts with
         | some sd =>
           ((pySortedBy (fun k => r'.TE_count_variable.getD k [])
               r'.TE_count_variable.keys).filter
               (fun it => r'.TE_count_valid.getD it false)).mapM
             (r'.writeLineWith sd.1 sd.2) = some out.2
         | none => out.2 = [])) := by
  constructor
  · exact fun v => ((Rosette.purge_spec r flines r' h).2.2.2.2.2.2.2.2.2.2.2) v
  · intro out hout
    exact Rosette.write_filter r' out hout

/-- Witness for claim C2: purging a one-variable table against a file
whose only header resolves to "G" leaves "G" valid. -/
theorem claim_C2_witness :
    Rosette.purge c10r0 [">id1 x", "ACGT"] =
      some { c10r0 with purged := true } ∧
    ({ c10r0 with purged := true } : Rosette).TE_count_valid.getD "G" false
      = true := by
  have hp : Rosette.purge c10r0 [">id1 x", "ACGT"] =
      some { c10r0 with purged := true } := by decide
  refine ⟨hp, ?_⟩
  exact ((claim_C2 c10r0 [">id1 x", "ACGT"] _ hp).1 "G").mpr
    ⟨">id1 x", by decide, by decide, ">id1", by decide, by decide⟩


/- ------------------------------------------------------------------ -/
/- Claim C4: characterisation of Rosette.write on loaded tables.       -/
/- ------------------------------------------------------------------ -/

/-- The grouping variables of a table in first-seen order (grouping
column = second column). -/
def groupsOf (rows : List (List String)) : List String :=
  firstSeen (rows.map (fun row => row.getD 1 ""))

/-- The last row of the table carrying grouping value `v`. -/
def lastRowFor (rows : List (List String)) (v : String) : List String :=
  (rows.filter (fun row => row.getD 1 "" == v)).getLastD []

/-- An element read off a list by position is a member. -/
theorem mem_of_lookup {α : Type} (l : List α) (k : Nat) (v : α)
    (h : l[k]? = some v) : v ∈ l := by
  obtain ⟨hk, he⟩ := List.getElem?_eq_some.mp h
  rw [← he]
  exact List.getElem_mem hk

theorem lastRowFor_append (rows : List (List String)) (row : List String)
    (v : String) :
    lastRowFor (rows ++ [row]) v =
      if row.getD 1 "" = v then row else lastRowFor rows v := by
  unfold lastRowFor
  rw [List.filter_append]
  by_cases h : row.getD 1 "" = v
  · rw [if_pos h]
    have hb : (row.getD 1 "" == v) = true := beq_iff_eq.mpr h
    rw [List.filter_cons, if_pos hb, List.filter_nil,
      List.getLastD_concat]
  · rw [if_neg h]
    have hb : (row.getD 1 "" == v) = false := beq_eq_false_iff_ne.mpr h
    rw [List.filter_cons, if_neg (by rw [hb]; exact Bool.false_ne_true),
      List.filter_nil, List.append_nil]

theorem lastRowFor_mem (rows : List (List String)) (v : String)
    (h : v ∈ rows.map (fun row => row.getD 1 "")) :
    lastRowFor rows v ∈ rows ∧ (lastRowFor rows v).getD 1 "" = v := by
  obtain ⟨row, hrow, hv⟩ := List.mem_map.mp h
  have hb : (row.getD 1 "" == v) = true := beq_iff_eq.mpr hv
  have hne : rows.filter (fun q => q.getD 1 "" == v) ≠ [] :=
    List.ne_nil_of_mem (List.mem_filter.mpr ⟨hrow, hb⟩)
  have hmem : lastRowFor rows v ∈
      rows.filter (fun q => q.getD 1 "" == v) := by
    unfold lastRowFor
    rw [List.getLastD_eq_getLast? _ _,
      List.getLast?_eq_getLast_of_ne_nil hne]
    simp only [Option.getD_some]
    exact List.getLast_mem hne
  exact ⟨(List.mem_filter.mp hmem).1,
    beq_iff_eq.mp (List.mem_filter.mp hmem).2⟩

theorem groupsOf_append (rows : List (List String)) (row : List String) :
    groupsOf (rows ++ [row]) =
      if row.getD 1 "" ∈ groupsOf rows then groupsOf rows
      else groupsOf rows ++ [row.getD 1 ""] := by
  unfold groupsOf firstSeen
  rw [List.map_append, firstSeenFrom_append]
  rfl

theorem mem_groupsOf (rows : List (List String)) (v : String) :
    v ∈ groupsOf rows ↔ v ∈ rows.map (fun row => row.getD 1 "") :=
  mem_firstSeen _ v

/-- Over a nodup list, a forward hit determines the interning key. -/
theorem firstIdx_of_getElem? {α : Type} [DecidableEq α] (L : List α)
    (hN : L.Nodup) (k : Nat) (v : α) (h : L[k]? = some v) :
    firstIdx v L = k := by
  induction L generalizing k with
  | nil => simp at h
  | cons x t ih =>
    cases k with
    | zero =>
      simp only [List.getElem?_cons_zero, Option.some.injEq] at h
      simp [firstIdx, h]
    | succ k =>
      simp only [List.getElem?_cons_succ] at h
      have hx : x ≠ v := by
        intro hx
        subst hx
        exact (List.nodup_cons.mp hN).1 (mem_of_lookup t k x h)
      simp [firstIdx, hx, ih (List.nodup_cons.mp hN).2 k h]

/-- The key returned by `Double_dict.add` maps back to the added value. -/
theorem ofList_add_fwd (L : List String) (v : String) :
    (((Double_dict.ofList L).add v).2).forward_dict.get?
      (((Double_dict.ofList L).add v).1) = some v := by
  rw [Double_dict.add_ofList]
  by_cases h : v ∈ L
  · rw [if_pos h]
    simp only
    rw [Double_dict.get?_forward_ofList]
    exact get?_firstIdx v L h
  · rw [if_neg h]
    simp only
    rw [Double_dict.get?_forward_ofList]
    rw [List.getElem?_append_right (le_refl L.length)]
    simp

/-- Forward lookups survive interning-list extension. -/
theorem ofList_fwd_mono (L M : List String) (k : Nat) (v : String)
    (h : (Double_dict.ofList L).forward_dict.get? k = some v) :
    (Double_dict.ofList (L ++ M)).forward_dict.get? k = some v := by
  rw [Double_dict.get?_forward_ofList] at h ⊢
  rw [List.getElem?_append_left (by
    by_contra hge
    rw [List.getElem?_eq_none (by omega)] at h
    cases h)]
  exact h

theorem drop_eq_map_getD {α : Type} (L : List α) (d : α) (k : Nat)
    (h : k ≤ L.length) :
    L.drop k = (List.range (L.length - k)).map (fun j => L.getD (j + k) d) := by
  apply List.ext_getElem?
  intro i
  rw [List.getElem?_drop]
  by_cases hi : i < L.length - k
  · rw [List.getElem?_map, List.getElem?_range hi,
      List.getElem?_eq_getElem (show k + i < L.length by omega)]
    have he : L.getD (i + k) d = L[k + i] := by
      rw [List.getD_eq_getElem?_getD,
        List.getElem?_eq_getElem (show i + k < L.length by omega)]
      simp only [Option.getD_some]
      congr 1
      omega
    rw [show ((some i).map fun j => L.getD (j + k) d) =
        some (L.getD (i + k) d) from rfl, he]
  · rw [List.getElem?_eq_none (by omega),
      List.getElem?_eq_none (by simp; omega)]

/-- A list whose key images are pairwise non-decreasing is a fixpoint of
the stable sort modelling python `sorted`. -/
theorem pySortedBy_eq_self (f : String → List Nat) (l : List String)
    (h : l.Pairwise (fun a b => listNatLe (f a) (f b) = true)) :
    pySortedBy f l = l := by
  induction l with
  | nil => rfl
  | cons x t ih =>
    have hx : ∀ y ∈ t, listNatLe (f x) (f y) = true :=
      fun y hy => (List.pairwise_cons.mp h).1 y hy
    have ht : pySortedBy f t = t := ih (List.pairwise_cons.mp h).2
    have hgoal : pySortedBy f (x :: t) =
        insertSortedBy f x (pySortedBy f t) := rfl
    rw [hgoal, ht]
    cases t with
    | nil => rfl
    | cons y t' =>
      show (if listNatLe (f x) (f y) then x :: y :: t'
            else y :: insertSortedBy f x t') = x :: y :: t'
      rw [if_pos (hx y (List.mem_cons_self y t'))]

/-- An in-range python list access, expressed through the default form. -/
theorem get?_eq_some_getD {α : Type} (l : List α) (n : Nat) (d : α)
    (h : n < l.length) : l.get? n = some (l.getD n d) := by
  rw [List.get?_eq_getElem?, List.getElem?_eq_getElem h,
    List.getD_eq_getElem?_getD, List.getElem?_eq_getElem h]
  rfl

/-- The values one row feeds into the shared `TE[1]` table when the
internal grouping index is 1: the grouping value itself and, when the
attribute loop runs (`column_number - 1 > 1`), the second attribute
column. -/
def te1Contrib (N : Nat) (row : List String) : List String :=
  row.getD 1 "" :: (if 1 < N - 1 then [row.getD 2 ""] else [])

/-- The full interning stream of `TE[1]` over a table. -/
def te1Stream (N : Nat) : List (List String) → List String
  | [] => []
  | row :: rest => te1Contrib N row ++ te1Stream N rest

theorem te1Stream_append (N : Nat) (rows : List (List String))
    (row : List String) :
    te1Stream N (rows ++ [row]) = te1Stream N rows ++ te1Contrib N row := by
  induction rows with
  | nil => simp [te1Stream]
  | cons q t ih =>
    show te1Contrib N q ++ te1Stream N (t ++ [row]) =
      (te1Contrib N q ++ te1Stream N t) ++ te1Contrib N row
    rw [ih, List.append_assoc]

theorem mem_te1Stream (N : Nat) (rows : List (List String)) (v : String)
    (h : v ∈ rows.map (fun row => row.getD 1 "")) : v ∈ te1Stream N rows := by
  induction rows with
  | nil => simp at h
  | cons q t ih =>
    show v ∈ te1Contrib N q ++ te1Stream N t
    rw [List.map_cons, List.mem_cons] at h
    rcases h with h | h
    · exact List.mem_append_left _ (h ▸ List.mem_cons_self _ _)
    · exact List.mem_append_right _ (ih h)

/-- The first-occurrence index is stable under extending the list. -/
theorem firstIdx_append_of_mem {α : Type} [DecidableEq α] (v : α)
    (L M : List α) (h : v ∈ L) : firstIdx v (L ++ M) = firstIdx v L := by
  induction L with
  | nil => simp at h
  | cons x t ih =>
    by_cases hx : x = v
    · simp [firstIdx, hx]
    · rcases List.mem_cons.mp h with h1 | h1
      · exact absurd h1.symm hx
      · simp [firstIdx, hx, ih h1]

/-- Distinct members have distinct first-occurrence indexes. -/
theorem firstIdx_inj {α : Type} [DecidableEq α] (L : List α) (v w : α)
    (hv : v ∈ L) (hw : w ∈ L) (h : firstIdx v L = firstIdx w L) : v = w := by
  have h1 := get?_firstIdx v L hv
  have h2 := get?_firstIdx w L hw
  rw [h, h2] at h1
  exact (Option.some_inj.mp h1).symm

/-- `Double_dict.add` on a canonical table, phrased uniformly through the
first-seen extension of the interning list. -/
theorem add_ofList_uniform (L : List String) (v : String) :
    (Double_dict.ofList L).add v =
      (firstIdx v (firstSeenFrom L [v]),
       Double_dict.ofList (firstSeenFrom L [v])) := by
  have hfs : firstSeenFrom L [v] = if v ∈ L then L else L ++ [v] := rfl
  rw [Double_dict.add_ofList]
  by_cases h : v ∈ L
  · rw [hfs, if_pos h, if_pos h]
  · rw [hfs, if_neg h, if_neg h, firstIdx_append_self v L [] h]

/-- Forward lookup through the interning table stored for column `i`. -/
def getFwd (r : Rosette) (i k : Nat) : Option String :=
  (r.TE.get? i).bind (fun dd => dd.forward_dict.get? k)

/-- Counterexample to claim C4 as stated.  First: the attributes written
for a grouping variable come from the LAST row carrying it, not from its
first-seen identifier (`id1` carries attribute "A", yet "B" from `id2` is
written).  Second: with the grouping column set to 3 on a four-column
table the attribute loop misaligns the key vector and `write` raises
(returns `none`), so the claim does not hold for every choice of
grouping column.  Third: the sort order is the interning order of the
grouping value in the shared `TE[1]` table, which differs from
first-insertion order when a non-grouping column has interned the value
earlier ("B" is interned by row 1's attribute, so group "B" sorts before
group "C" although "C" was inserted first). -/
theorem claim_C4_cex :
    ((Rosette.load [["id1", "G", "A"], ["id2", "G", "B"]] 2 1 false).bind
        (fun r => r.write) = some ([["G", "B", "0", "0"]], []) ∧
      "B" ≠ "A") ∧
    (Rosette.load [["id1", "A", "G", "B"], ["id2", "C", "H", "D"]]
        3 1 false).bind (fun r => r.write) = none ∧
    (((Rosette.load [["id1", "A", "B"], ["id2", "C", "x"], ["id3", "B", "y"]]
          2 1 false).bind (fun r => r.write)).map
        (fun out => out.1.map (fun l => l.headD "")) = some ["A", "B", "C"] ∧
      groupsOf [["id1", "A", "B"], ["id2", "C", "x"], ["id3", "B", "y"]] =
        ["A", "C", "B"]) := by
  decide

/-- The grouping variables in write order: sorted by the interning key of
the grouping value in the shared `TE[1]` table. -/
def sortedGroups (N : Nat) (rows : List (List String)) : List String :=
  pySortedBy (fun v => [firstIdx v (firstSeen (te1Stream N rows))])
    (groupsOf rows)

theorem mem_insertSortedBy (f : String → List Nat) (x y : String)
    (l : List String) : y ∈ insertSortedBy f x l ↔ y = x ∨ y ∈ l := by
  induction l with
  | nil => simp [insertSortedBy]
  | cons z t ih =>
    cases h : listNatLe (f x) (f z) with
    | true => simp [insertSortedBy, h]
    | false =>
      simp only [insertSortedBy, h, Bool.false_eq_true, if_false,
        List.mem_cons, ih]
      tauto

theorem mem_pySortedBy (f : String → List Nat) (l : List String)
    (y : String) : y ∈ pySortedBy f l ↔ y ∈ l := by
  induction l with
  | nil => simp [pySortedBy]
  | cons x t ih =>
    have hg : pySortedBy f (x :: t) = insertSortedBy f x (pySortedBy f t) :=
      rfl
    rw [hg, mem_insertSortedBy, ih, List.mem_cons]

theorem insertSortedBy_congr (f g : String → List Nat) (x : String)
    (l : List String)
    (h : ∀ y ∈ l, listNatLe (f x) (f y) = listNatLe (g x) (g y)) :
    insertSortedBy f x l = insertSortedBy g x l := by
  induction l with
  | nil => rfl
  | cons z t ih =>
    show (if listNatLe (f x) (f z) then x :: z :: t
          else z :: insertSortedBy f x t)
       = (if listNatLe (g x) (g z) then x :: z :: t
          else z :: insertSortedBy g x t)
    rw [h z (List.mem_cons_self z t),
      ih (fun y hy => h y (List.mem_cons_of_mem z hy))]

theorem pySortedBy_congr (f g : String → List Nat) (l : List String)
    (hn : l.Nodup)
    (h : ∀ a ∈ l, ∀ b ∈ l, a ≠ b →
      listNatLe (f a) (f b) = listNatLe (g a) (g b)) :
    pySortedBy f l = pySortedBy g l := by
  induction l with
  | nil => rfl
  | cons x t ih =>
    have hx : x ∉ t := (List.nodup_cons.mp hn).1
    have ht : pySortedBy f t = pySortedBy g t :=
      ih (List.nodup_cons.mp hn).2
        (fun a ha b hb hab =>
          h a (List.mem_cons_of_mem x ha) b (List.mem_cons_of_mem x hb) hab)
    have h1 : pySortedBy f (x :: t) = insertSortedBy f x (pySortedBy f t) :=
      rfl
    have h2 : pySortedBy g (x :: t) = insertSortedBy g x (pySortedBy g t) :=
      rfl
    rw [h1, h2, ht]
    exact insertSortedBy_congr f g x (pySortedBy g t)
      (fun y hy => by
        have hyt : y ∈ t := (mem_pySortedBy g t y).mp hy
        exact h x (List.mem_cons_self x t) y (List.mem_cons_of_mem x hyt)
          (fun hxy => hx (hxy ▸ hyt)))

theorem listNatLe_head_ne (a b : Nat) (as bs : List Nat) (h : a ≠ b) :
    listNatLe (a :: as) (b :: bs) = listNatLe [a] [b] := by
  by_cases hab : a < b
  · simp [listNatLe, hab]
  · have hba : b < a := by omega
    simp [listNatLe, hab, hba]

theorem mapM_eq_map {α β : Type} (f : α → Option β) (g : α → β)
    (l : List α) (h : ∀ x ∈ l, f x = some (g x)) :
    l.mapM f = some (l.map g) := by
  induction l with
  | nil => rfl
  | cons x t ih =>
    rw [List.mapM_cons, h x (List.mem_cons_self x t),
      ih (fun y hy => h y (List.mem_cons_of_mem x hy))]
    rfl

theorem list_get?_set_self {α : Type} (l : List α) (i : Nat) (a : α)
    (h : i < l.length) : (l.set i a).get? i = some a := by
  rw [List.get?_eq_getElem?]
  exact List.getElem?_set_self (by omega)

theorem list_get?_set_ne {α : Type} (l : List α) (i j : Nat) (a : α)
    (h : i ≠ j) : (l.set i a).get? j = l.get? j := by
  rw [List.get?_eq_getElem?, List.get?_eq_getElem?]
  exact List.getElem?_set_ne h

theorem withIdx_inj {α : Type} (L : List α) :
    ∀ (M : List α) (i : Nat), withIdx i L = withIdx i M → L = M := by
  induction L with
  | nil =>
    intro M i h
    cases M with
    | nil => rfl
    | cons y t => simp [withIdx] at h
  | cons x t ih =>
    intro M i h
    cases M with
    | nil => simp [withIdx] at h
    | cons y s =>
      simp only [withIdx, List.cons.injEq, Prod.mk.injEq] at h
      rw [h.1.2, ih s (i + 1) h.2]

/-- The canonical interning table determines its interning list. -/
theorem ofList_inj (L M : List String)
    (h : Double_dict.ofList L = Double_dict.ofList M) : L = M := by
  have h1 : withIdx 0 L = withIdx 0 M :=
    congrArg (fun d => d.forward_dict.entries) h
  exact withIdx_inj L M 0 h1

theorem addLoop_nil (cc : Nat) (line : List String)
    (st : List Double_dict × List Nat) :
    Rosette.addLoop cc line [] st = some st := rfl

theorem addLoop_cons (cc : Nat) (line : List String) (i : Nat)
    (rest : List Nat) (st : List Double_dict × List Nat) :
    Rosette.addLoop cc line (i :: rest) st =
      (if i + 1 ≠ cc then do
          let v ← line.get? (i + 1)
          let dd ← List.get? st.1 i
          let p := dd.add v
          pure (st.1.set i p.2, st.2 ++ [p.1])
        else pure st).bind (Rosette.addLoop cc line rest) := by
  simp only [Rosette.addLoop, List.foldlM_cons]
  rfl

/-- Full characterisation of the attribute loop of `Rosette.add` over
indexes `≥ 2` (grouping index 1): the loop succeeds, appends one key per
index, extends each interning list in place, leaves untouched columns
unchanged, and each appended key maps forward to the interned row
value. -/
theorem addLoop_char (line : List String) (idxs : List Nat) :
    ∀ (TEs : List Double_dict) (ks : List Nat),
      (∀ i ∈ idxs, 2 ≤ i ∧ i + 1 < line.length ∧ i < TEs.length) →
      (∀ j, j < TEs.length → ∃ L, L.Nodup ∧
        TEs.get? j = some (Double_dict.ofList L)) →
      ∃ TEs' ksAdd,
        Rosette.addLoop 1 line idxs (TEs, ks) = some (TEs', ks ++ ksAdd) ∧
        TEs'.length = TEs.length ∧
        (∀ j L, TEs.get? j = some (Double_dict.ofList L) → L.Nodup →
          ∃ M, TEs'.get? j = some (Double_dict.ofList (L ++ M)) ∧
            (L ++ M).Nodup) ∧
        (∀ j, j ∉ idxs → TEs'.get? j = TEs.get? j) ∧
        ksAdd.length = idxs.length ∧
        (∀ t i, idxs.get? t = some i → ∃ k, ksAdd.get? t = some k ∧
          (TEs'.get? i).bind (fun dd => dd.forward_dict.get? k) =
            some (line.getD (i + 1) "")) := by
  induction idxs with
  | nil =>
    intro TEs ks _ _
    refine ⟨TEs, [], ?_, rfl, ?_, fun j _ => rfl, rfl, ?_⟩
    · rw [List.append_nil]
      exact addLoop_nil 1 line (TEs, ks)
    · intro j L hL hnd
      exact ⟨[], by rw [List.append_nil]; exact hL,
        by rw [List.append_nil]; exact hnd⟩
    · intro t i ht
      simp at ht
  | cons i rest ih =>
    intro TEs ks hbound hwf
    obtain ⟨hi2, hilt, hiTE⟩ := hbound i (List.mem_cons_self i rest)
    obtain ⟨Li, hndLi, hLi⟩ := hwf i hiTE
    obtain ⟨E, hE⟩ := firstSeenFrom_isPrefix Li [line.getD (i + 1) ""]
    have hv : line.get? (i + 1) = some (line.getD (i + 1) "") :=
      get?_eq_some_getD line (i + 1) "" hilt
    have hstep : Rosette.addLoop 1 line (i :: rest) (TEs, ks) =
        Rosette.addLoop 1 line rest
          (TEs.set i (Double_dict.ofList
              (firstSeenFrom Li [line.getD (i + 1) ""])),
           ks ++ [firstIdx (line.getD (i + 1) "")
              (firstSeenFrom Li [line.getD (i + 1) ""])]) := by
      rw [addLoop_cons, if_pos (show i + 1 ≠ 1 by omega),
        show List.get? ((TEs, ks) : List Double_dict × List Nat).1 i =
          some (Double_dict.ofList Li) from hLi, hv]
      show Rosette.addLoop 1 line rest
        (TEs.set i ((Double_dict.ofList Li).add (line.getD (i + 1) "")).2,
         ks ++ [((Double_dict.ofList Li).add (line.getD (i + 1) "")).1]) = _
      rw [add_ofList_uniform]
    have hwf1 : ∀ j, j < (TEs.set i (Double_dict.ofList
        (firstSeenFrom Li [line.getD (i + 1) ""]))).length →
        ∃ L, L.Nodup ∧ (TEs.set i (Double_dict.ofList
          (firstSeenFrom Li [line.getD (i + 1) ""]))).get? j =
            some (Double_dict.ofList L) := by
      intro j hj
      rw [List.length_set] at hj
      by_cases hji : j = i
      · subst hji
        exact ⟨firstSeenFrom Li [line.getD (j + 1) ""],
          nodup_firstSeenFrom Li _ hndLi, list_get?_set_self TEs j _ hj⟩
      · obtain ⟨L, hnd, hL⟩ := hwf j hj
        exact ⟨L, hnd, by rw [list_get?_set_ne TEs i j _ (fun h => hji h.symm)]; exact hL⟩
    have hbound1 : ∀ i' ∈ rest, 2 ≤ i' ∧ i' + 1 < line.length ∧
        i' < (TEs.set i (Double_dict.ofList
          (firstSeenFrom Li [line.getD (i + 1) ""]))).length := by
      intro i' hi'
      obtain ⟨h1, h2, h3⟩ := hbound i' (List.mem_cons_of_mem i hi')
      exact ⟨h1, h2, by rw [List.length_set]; exact h3⟩
    obtain ⟨TEs', ksAdd', hfold, hlen, hext, hunt, hlenAdd, hpos⟩ :=
      ih (TEs.set i (Double_dict.ofList
          (firstSeenFrom Li [line.getD (i + 1) ""])))
        (ks ++ [firstIdx (line.getD (i + 1) "")
          (firstSeenFrom Li [line.getD (i + 1) ""])]) hbound1 hwf1
    refine ⟨TEs', firstIdx (line.getD (i + 1) "")
        (firstSeenFrom Li [line.getD (i + 1) ""]) :: ksAdd',
      ?_, ?_, ?_, ?_, ?_, ?_⟩
    · rw [hstep, hfold, List.append_assoc, List.singleton_append]
    · rw [hlen, List.length_set]
    · intro j L hL hnd
      by_cases hji : j = i
      · subst hji
        have hLLi : L = Li := by
          rw [hLi] at hL
          exact ofList_inj L Li (Option.some_inj.mp hL).symm
        subst hLLi
        obtain ⟨M, hM, hMnd⟩ := hext j (firstSeenFrom L [line.getD (j + 1) ""])
          (list_get?_set_self TEs j _ hiTE)
          (nodup_firstSeenFrom L _ hnd)
        refine ⟨E ++ M, ?_, ?_⟩
        · rw [← List.append_assoc, hE]
          exact hM
        · rw [← List.append_assoc, hE]
          exact hMnd
      · obtain ⟨M, hM, hMnd⟩ := hext j L
          (by rw [list_get?_set_ne TEs i j _ (fun h => hji h.symm)]; exact hL)
          hnd
        exact ⟨M, hM, hMnd⟩
    · intro j hj
      rw [List.mem_cons] at hj
      push_neg at hj
      rw [hunt j hj.2, list_get?_set_ne TEs i j _ (fun h => hj.1 h.symm)]
    · simp [hlenAdd]
    · intro t i' ht
      cases t with
      | zero =>
        rw [List.get?_cons_zero] at ht
        have hii : i' = i := (Option.some_inj.mp ht).symm
        subst hii
        refine ⟨firstIdx (line.getD (i' + 1) "")
          (firstSeenFrom Li [line.getD (i' + 1) ""]), rfl, ?_⟩
        obtain ⟨M, hM, _⟩ := hext i'
          (firstSeenFrom Li [line.getD (i' + 1) ""])
          (list_get?_set_self TEs i' _ hiTE)
          (nodup_firstSeenFrom Li _ hndLi)
        rw [hM]
        show (Double_dict.ofList (firstSeenFrom Li [line.getD (i' + 1) ""]
            ++ M)).forward_dict.get? (firstIdx (line.getD (i' + 1) "")
              (firstSeenFrom Li [line.getD (i' + 1) ""])) =
          some (line.getD (i' + 1) "")
        apply ofList_fwd_mono
        rw [Double_dict.get?_forward_ofList]
        exact get?_firstIdx (line.getD (i' + 1) "") _
          ((mem_firstSeenFrom Li _ _).mpr
            (Or.inr (List.mem_singleton.mpr rfl)))
      | succ t =>
        rw [List.get?_cons_succ] at ht
        obtain ⟨k, hk, hfwd⟩ := hpos t i' ht
        exact ⟨k, by rw [List.get?_cons_succ]; exact hk, hfwd⟩

/-- The shape of a `Rosette` built by loading `rows` with the grouping
column coerced to internal index 1 and small-RNA splitting off: sizes,
canonical interning tables, the exact `TE[1]` interning list, the key
vectors stored for every grouping value, and the presence of all
per-variable dicts. -/
structure C4Inv (N : Nat) (rows : List (List String)) (r : Rosette) :
    Prop where
  cc : r.count_column = 1
  col : r.column_number = N
  sd : r.sirnaDicts = none
  TElen : r.TE.length = N
  TEwf : ∀ j, j < N → ∃ L, L.Nodup ∧
    r.TE.get? j = some (Double_dict.ofList L)
  TE1 : r.TE.get? 1 = some (Double_dict.ofList (firstSeen (te1Stream N rows)))
  keysEq : r.TE_count_variable.keys = groupsOf rows
  entryLen : ∀ v keys, r.TE_count_variable.get? v = some keys →
    keys.length = N - 1
  entryPrim : ∀ v keys, r.TE_count_variable.get? v = some keys →
    keys.get? 0 = some (firstIdx v (firstSeen (te1Stream N rows)))
  entryAttr : ∀ v keys, r.TE_count_variable.get? v = some keys →
    ∀ i, 1 ≤ i → i ≤ N - 2 →
      ∃ ki, keys.get? i = some ki ∧
        getFwd r i ki = some ((lastRowFor rows v).getD (i + 1) "")
  counts : ∀ v ∈ groupsOf rows, (r.TE_count.get? v).isSome
  totals : ∀ v ∈ groupsOf rows, (r.TE_count_total.get? v).isSome
  valids : ∀ v ∈ groupsOf rows, (r.TE_count_valid.get? v).isSome

theorem get?_range' (s n i : Nat) (h : i < n) :
    (List.range' s n).get? i = some (s + i) := by
  induction n generalizing s i with
  | zero => omega
  | succ n ih =>
    rw [List.range'_succ]
    cases i with
    | zero => rfl
    | succ i =>
      rw [List.get?_cons_succ, ih (s + 1) i (by omega)]
      congr 1
      omega

/-- The attribute pass of `Rosette.add` on an invariant-shaped state:
full characterisation of the final interning tables and key vector. -/
theorem addKeysStep_inv (N : Nat) (hN : 2 ≤ N) (L1 : List String)
    (hndL1 : L1.Nodup) (r : Rosette)
    (hcc : r.count_column = 1) (hcol : r.column_number = N)
    (hTElen : r.TE.length = N)
    (hTEwf : ∀ j, j < N → ∃ L, L.Nodup ∧
      r.TE.get? j = some (Double_dict.ofList L))
    (hTE1 : r.TE.get? 1 = some (Double_dict.ofList L1))
    (row : List String) (hrow : row.length = N) :
    ∃ TEfin keysF,
      r.addKeysStep row
        (r.TE.set 1 (Double_dict.ofList (firstSeenFrom L1 [row.getD 1 ""])),
         [firstIdx (row.getD 1 "") (firstSeenFrom L1 [row.getD 1 ""])]) =
        some (TEfin, keysF) ∧
      TEfin.length = N ∧
      TEfin.get? 1 = some (Double_dict.ofList
        (firstSeenFrom L1 (te1Contrib N row))) ∧
      (∀ j, j < N → ∃ L, L.Nodup ∧
        TEfin.get? j = some (Double_dict.ofList L)) ∧
      (∀ j L, r.TE.get? j = some (Double_dict.ofList L) → L.Nodup →
        ∃ M, TEfin.get? j = some (Double_dict.ofList (L ++ M))) ∧
      keysF.length = N - 1 ∧
      keysF.get? 0 = some (firstIdx (row.getD 1 "")
        (firstSeenFrom L1 (te1Contrib N row))) ∧
      (∀ i, 1 ≤ i → i ≤ N - 2 → ∃ ki, keysF.get? i = some ki ∧
        (TEfin.get? i).bind (fun dd => dd.forward_dict.get? ki) =
          some (row.getD (i + 1) "")) := by
  have h1N : 1 < N := by omega
  have h1TE : 1 < r.TE.length := by omega
  by_cases hN3 : 1 < N - 1
  · -- at least three columns: the loop runs over range (N-1)
    have hcontrib : te1Contrib N row =
        row.getD 1 "" :: [row.getD 2 ""] := by
      unfold te1Contrib
      rw [if_pos hN3]
    have hrange : List.range (N - 1) = 0 :: 1 :: List.range' 2 (N - 3) := by
      rw [List.range_eq_range']
      have h1 : N - 1 = ((N - 3) + 1) + 1 := by omega
      rw [h1, List.range'_succ, List.range'_succ]
    have hstep0 : Rosette.addLoop 1 row (0 :: 1 :: List.range' 2 (N - 3))
        (r.TE.set 1 (Double_dict.ofList (firstSeenFrom L1 [row.getD 1 ""])),
         [firstIdx (row.getD 1 "") (firstSeenFrom L1 [row.getD 1 ""])]) =
        Rosette.addLoop 1 row (1 :: List.range' 2 (N - 3))
        (r.TE.set 1 (Double_dict.ofList (firstSeenFrom L1 [row.getD 1 ""])),
         [firstIdx (row.getD 1 "") (firstSeenFrom L1 [row.getD 1 ""])]) := by
      rw [addLoop_cons, if_neg (show ¬(0 + 1 ≠ 1) by omega)]
      rfl
    have hv2 : row.get? 2 = some (row.getD 2 "") :=
      get?_eq_some_getD row 2 "" (by omega)
    have hget1 : List.get?
        ((r.TE.set 1 (Double_dict.ofList (firstSeenFrom L1 [row.getD 1 ""])),
          [firstIdx (row.getD 1 "") (firstSeenFrom L1 [row.getD 1 ""])]) :
          List Double_dict × List Nat).1 1 =
        some (Double_dict.ofList (firstSeenFrom L1 [row.getD 1 ""])) :=
      list_get?_set_self r.TE 1 _ h1TE
    have hstep1 : Rosette.addLoop 1 row (1 :: List.range' 2 (N - 3))
        (r.TE.set 1 (Double_dict.ofList (firstSeenFrom L1 [row.getD 1 ""])),
         [firstIdx (row.getD 1 "") (firstSeenFrom L1 [row.getD 1 ""])]) =
        Rosette.addLoop 1 row (List.range' 2 (N - 3))
        ((r.TE.set 1 (Double_dict.ofList (firstSeenFrom L1 [row.getD 1 ""]))).set
            1 (Double_dict.ofList
              (firstSeenFrom (firstSeenFrom L1 [row.getD 1 ""])
                [row.getD 2 ""])),
         [firstIdx (row.getD 1 "") (firstSeenFrom L1 [row.getD 1 ""]),
          firstIdx (row.getD 2 "")
            (firstSeenFrom (firstSeenFrom L1 [row.getD 1 ""])
              [row.getD 2 ""])]) := by
      rw [addLoop_cons, if_pos (show 1 + 1 ≠ 1 by omega), hv2, hget1]
      show Rosette.addLoop 1 row (List.range' 2 (N - 3))
        ((r.TE.set 1 (Double_dict.ofList
            (firstSeenFrom L1 [row.getD 1 ""]))).set 1
          ((Double_dict.ofList (firstSeenFrom L1 [row.getD 1 ""])).add
            (row.getD 2 "")).2,
         [firstIdx (row.getD 1 "") (firstSeenFrom L1 [row.getD 1 ""])] ++
          [((Double_dict.ofList (firstSeenFrom L1 [row.getD 1 ""])).add
            (row.getD 2 "")).1]) = _
      rw [add_ofList_uniform]
      rfl
    have hndL1g : (firstSeenFrom L1 [row.getD 1 ""]).Nodup :=
      nodup_firstSeenFrom L1 _ hndL1
    have hndL1f : (firstSeenFrom (firstSeenFrom L1 [row.getD 1 ""])
        [row.getD 2 ""]).Nodup :=
      nodup_firstSeenFrom _ _ hndL1g
    have hbounds : ∀ i ∈ List.range' 2 (N - 3),
        2 ≤ i ∧ i + 1 < row.length ∧
        i < ((r.TE.set 1 (Double_dict.ofList
            (firstSeenFrom L1 [row.getD 1 ""]))).set 1
          (Double_dict.ofList (firstSeenFrom
            (firstSeenFrom L1 [row.getD 1 ""]) [row.getD 2 ""]))).length := by
      intro i hi
      rw [List.mem_range'_1] at hi
      refine ⟨hi.1, by omega, ?_⟩
      rw [List.length_set, List.length_set, hTElen]
      omega
    have hwf1 : ∀ j, j < ((r.TE.set 1 (Double_dict.ofList
        (firstSeenFrom L1 [row.getD 1 ""]))).set 1
          (Double_dict.ofList (firstSeenFrom
            (firstSeenFrom L1 [row.getD 1 ""]) [row.getD 2 ""]))).length →
        ∃ L, L.Nodup ∧ ((r.TE.set 1 (Double_dict.ofList
          (firstSeenFrom L1 [row.getD 1 ""]))).set 1
            (Double_dict.ofList (firstSeenFrom
              (firstSeenFrom L1 [row.getD 1 ""]) [row.getD 2 ""]))).get? j =
          some (Double_dict.ofList L) := by
      intro j hj
      rw [List.length_set, List.length_set, hTElen] at hj
      by_cases hj1 : j = 1
      · subst hj1
        refine ⟨firstSeenFrom (firstSeenFrom L1 [row.getD 1 ""])
          [row.getD 2 ""], hndL1f, ?_⟩
        apply list_get?_set_self
        rw [List.length_set]
        exact h1TE
      · obtain ⟨L, hnd, hL⟩ := hTEwf j hj
        refine ⟨L, hnd, ?_⟩
        rw [list_get?_set_ne _ 1 j _ (fun h => hj1 h.symm),
          list_get?_set_ne _ 1 j _ (fun h => hj1 h.symm)]
        exact hL
    obtain ⟨TEs', ksAdd, hfold, hlen', hext', hunt', hlenAdd, hpos⟩ :=
      addLoop_char row (List.range' 2 (N - 3)) _ _ hbounds hwf1
    have h1notin : (1 : Nat) ∉ List.range' 2 (N - 3) := by
      rw [List.mem_range'_1]
      omega
    have hTE1fin : TEs'.get? 1 = some (Double_dict.ofList
        (firstSeenFrom (firstSeenFrom L1 [row.getD 1 ""])
          [row.getD 2 ""])) := by
      rw [hunt' 1 h1notin]
      apply list_get?_set_self
      rw [List.length_set]
      exact h1TE
    have hfinal : firstSeenFrom L1 (te1Contrib N row) =
        firstSeenFrom (firstSeenFrom L1 [row.getD 1 ""]) [row.getD 2 ""] := by
      rw [hcontrib,
        show (row.getD 1 "" :: [row.getD 2 ""]) =
          [row.getD 1 ""] ++ [row.getD 2 ""] from rfl,
        firstSeenFrom_append]
    refine ⟨TEs',
      firstIdx (row.getD 1 "") (firstSeenFrom L1 [row.getD 1 ""]) ::
        firstIdx (row.getD 2 "") (firstSeenFrom
          (firstSeenFrom L1 [row.getD 1 ""]) [row.getD 2 ""]) :: ksAdd,
      ?_, ?_, ?_, ?_, ?_, ?_, ?_, ?_⟩
    · unfold Rosette.addKeysStep
      rw [hcol, if_pos hN3, hcc, hrange, hstep0, hstep1, hfold]
      rfl
    · rw [hlen', List.length_set, List.length_set, hTElen]
    · rw [hTE1fin, hfinal]
    · intro j hj
      rw [← hTElen] at hj
      obtain ⟨L, hnd, hL⟩ := hwf1 j (by rw [List.length_set, List.length_set]; exact hj)
      obtain ⟨M, hM, hMnd⟩ := hext' j L hL hnd
      exact ⟨L ++ M, hMnd, hM⟩
    · intro j L hL hnd
      by_cases hj1 : j = 1
      · subst hj1
        have hLL1 : L = L1 := by
          rw [hTE1] at hL
          exact ofList_inj L L1 (Option.some_inj.mp hL).symm
        subst hLL1
        obtain ⟨E, hE⟩ := firstSeenFrom_isPrefix L (te1Contrib N row)
        refine ⟨E, ?_⟩
        rw [hTE1fin, ← hfinal, ← hE]
      · obtain ⟨M, hM, _⟩ := hext' j L
          (by rw [list_get?_set_ne _ 1 j _ (fun h => hj1 h.symm),
                list_get?_set_ne _ 1 j _ (fun h => hj1 h.symm)]
              exact hL)
          hnd
        exact ⟨M, hM⟩
    · simp only [List.length_cons]
      rw [hlenAdd, List.length_range']
      omega
    · show some (firstIdx (row.getD 1 "")
          (firstSeenFrom L1 [row.getD 1 ""])) = _
      have hgmem : row.getD 1 "" ∈ firstSeenFrom L1 [row.getD 1 ""] :=
        (mem_firstSeenFrom L1 _ _).mpr
          (Or.inr (List.mem_singleton.mpr rfl))
      obtain ⟨E, hE⟩ := firstSeenFrom_isPrefix
        (firstSeenFrom L1 [row.getD 1 ""]) [row.getD 2 ""]
      rw [hfinal, ← hE, firstIdx_append_of_mem _ _ E hgmem]
    · intro i hi1 hi2
      by_cases hieq : i = 1
      · subst hieq
        refine ⟨firstIdx (row.getD 2 "")
          (firstSeenFrom (firstSeenFrom L1 [row.getD 1 ""])
            [row.getD 2 ""]), rfl, ?_⟩
        rw [hTE1fin]
        show (Double_dict.ofList _).forward_dict.get? _ = _
        rw [Double_dict.get?_forward_ofList]
        exact get?_firstIdx (row.getD 2 "") _
          ((mem_firstSeenFrom _ _ _).mpr
            (Or.inr (List.mem_singleton.mpr rfl)))
      · have hi2' : 2 ≤ i := by omega
        have hti : (List.range' 2 (N - 3)).get? (i - 2) = some i := by
          rw [get?_range' 2 (N - 3) (i - 2) (by omega)]
          congr 1
          omega
        obtain ⟨k, hk, hfwd⟩ := hpos (i - 2) i hti
        refine ⟨k, ?_, hfwd⟩
        have hieq2 : i = (i - 2) + 1 + 1 := by omega
        rw [hieq2, List.get?_cons_succ, List.get?_cons_succ]
        exact hk
  · -- two columns: the loop body never runs
    have hN2 : N = 2 := by omega
    have hcontrib : te1Contrib N row = [row.getD 1 ""] := by
      unfold te1Contrib
      rw [if_neg hN3]
    refine ⟨r.TE.set 1 (Double_dict.ofList
        (firstSeenFrom L1 [row.getD 1 ""])),
      [firstIdx (row.getD 1 "") (firstSeenFrom L1 [row.getD 1 ""])],
      ?_, ?_, ?_, ?_, ?_, ?_, ?_, ?_⟩
    · unfold Rosette.addKeysStep
      rw [hcol, if_neg hN3]
      rfl
    · rw [List.length_set, hTElen]
    · rw [hcontrib]
      exact list_get?_set_self r.TE 1 _ h1TE
    · intro j hj
      by_cases hj1 : j = 1
      · subst hj1
        exact ⟨firstSeenFrom L1 [row.getD 1 ""],
          nodup_firstSeenFrom L1 _ hndL1,
          list_get?_set_self r.TE 1 _ h1TE⟩
      · obtain ⟨L, hnd, hL⟩ := hTEwf j hj
        exact ⟨L, hnd,
          by rw [list_get?_set_ne r.TE 1 j _ (fun h => hj1 h.symm)]; exact hL⟩
    · intro j L hL hnd
      by_cases hj1 : j = 1
      · subst hj1
        have hLL1 : L = L1 := by
          rw [hTE1] at hL
          exact ofList_inj L L1 (Option.some_inj.mp hL).symm
        subst hLL1
        obtain ⟨E, hE⟩ := firstSeenFrom_isPrefix L [row.getD 1 ""]
        refine ⟨E, ?_⟩
        rw [← hE] at *
        exact list_get?_set_self r.TE 1 _ h1TE
      · exact ⟨[], by
          rw [List.append_nil, list_get?_set_ne r.TE 1 j _
            (fun h => hj1 h.symm)]
          exact hL⟩
    · show 1 = N - 1
      omega
    · rw [hcontrib]
      rfl
    · intro i hi1 hi2
      omega

/-- One `Rosette.add` call preserves the load invariant, extending the
table by the processed row. -/
theorem add_inv (N : Nat) (hN : 2 ≤ N) (rows : List (List String))
    (r : Rosette) (inv : C4Inv N rows r) (row : List String)
    (hrow : row.length = N) :
    ∃ r', r.add row = some r' ∧ C4Inv N (rows ++ [row]) r' := by
  obtain ⟨hcc, hcol, hsd, hTElen, hTEwf, hTE1, hkeys, hlenE, hprim, hattr,
    hcnt, htot, hval⟩ := inv
  have h0 : row.get? 0 = some (row.getD 0 "") :=
    get?_eq_some_getD row 0 "" (by omega)
  have h1 : row.get? 1 = some (row.getD 1 "") :=
    get?_eq_some_getD row 1 "" (by omega)
  obtain ⟨TEfin, keysF, hks, hfinlen, hfin1, hfinwf, hfinext, hkflen, hkf0,
    hkfattr⟩ :=
    addKeysStep_inv N hN (firstSeen (te1Stream N rows)) (nodup_firstSeen _)
      r hcc hcol hTElen hTEwf hTE1 row hrow
  have hstream : firstSeen (te1Stream N (rows ++ [row])) =
      firstSeenFrom (firstSeen (te1Stream N rows)) (te1Contrib N row) := by
    rw [te1Stream_append]
    exact firstSeenFrom_append [] _ _
  have hvmemL1 : ∀ v, v ∈ groupsOf rows →
      v ∈ firstSeen (te1Stream N rows) := fun v hv =>
    (mem_firstSeen _ v).mpr
      (mem_te1Stream N rows v ((mem_groupsOf rows v).mp hv))
  refine ⟨{ r with
      TE := TEfin,
      TE_identifier := r.TE_identifier.set (row.getD 0 "") keysF,
      TE_count_variable := r.TE_count_variable.set (row.getD 1 "") keysF,
      TE_count := r.TE_count.set (row.getD 1 "")
        (List.replicate r.sample_number 0),
      TE_count_total := r.TE_count_total.set (row.getD 1 "") 0,
      TE_count_valid := r.TE_count_valid.set (row.getD 1 "") true },
    ?_, ?_⟩
  · unfold Rosette.add
    rw [hcc, hsd]
    simp only [Option.bind_eq_bind, Option.bind_eq_some, Option.pure_def,
      Option.some.injEq]
    refine ⟨row.getD 0 "", h0, row.getD 1 "", h1,
      Double_dict.ofList (firstSeen (te1Stream N rows)), hTE1,
      (TEfin, keysF), ?_, ?_⟩
    · rw [add_ofList_uniform]
      exact hks
    · rfl
  · refine ⟨hcc, hcol, hsd, hfinlen, hfinwf, ?_, ?_, ?_, ?_, ?_, ?_, ?_, ?_⟩
    · show TEfin.get? 1 = _
      rw [hstream]
      exact hfin1
    · show (r.TE_count_variable.set (row.getD 1 "") keysF).keys =
        groupsOf (rows ++ [row])
      rw [groupsOf_append]
      by_cases hg : row.getD 1 "" ∈ groupsOf rows
      · rw [if_pos hg,
          PyDict.keys_set_mem _ _ _ (by rw [hkeys]; exact hg), hkeys]
      · rw [if_neg hg,
          PyDict.keys_set_notMem _ _ _ (by rw [hkeys]; exact hg), hkeys]
    · show ∀ v keys,
        (r.TE_count_variable.set (row.getD 1 "") keysF).get? v =
          some keys → keys.length = N - 1
      intro v keys' hv'
      by_cases hvg : v = row.getD 1 ""
      · subst hvg
        rw [PyDict.get?_set_self] at hv'
        rw [← Option.some_inj.mp hv']
        exact hkflen
      · rw [PyDict.get?_set_ne _ _ _ _ hvg] at hv'
        exact hlenE v keys' hv'
    · show ∀ v keys,
        (r.TE_count_variable.set (row.getD 1 "") keysF).get? v =
          some keys →
        keys.get? 0 =
          some (firstIdx v (firstSeen (te1Stream N (rows ++ [row]))))
      intro v keys' hv'
      rw [hstream]
      by_cases hvg : v = row.getD 1 ""
      · subst hvg
        rw [PyDict.get?_set_self] at hv'
        rw [← Option.some_inj.mp hv']
        exact hkf0
      · rw [PyDict.get?_set_ne _ _ _ _ hvg] at hv'
        have hvmem : v ∈ firstSeen (te1Stream N rows) :=
          hvmemL1 v (by rw [← hkeys]; exact PyDict.mem_keys_of_get? _ _ _ hv')
        obtain ⟨E, hE⟩ := firstSeenFrom_isPrefix
          (firstSeen (te1Stream N rows)) (te1Contrib N row)
        rw [← hE, firstIdx_append_of_mem v _ E hvmem]
        exact hprim v keys' hv'
    · show ∀ v keys,
        (r.TE_count_variable.set (row.getD 1 "") keysF).get? v =
          some keys → ∀ i, 1 ≤ i → i ≤ N - 2 →
          ∃ ki, keys.get? i = some ki ∧
            (TEfin.get? i).bind (fun dd => dd.forward_dict.get? ki) =
              some ((lastRowFor (rows ++ [row]) v).getD (i + 1) "")
      intro v keys' hv' i hi1 hi2
      by_cases hvg : v = row.getD 1 ""
      · subst hvg
        rw [PyDict.get?_set_self] at hv'
        rw [← Option.some_inj.mp hv']
        have hlast : lastRowFor (rows ++ [row]) (row.getD 1 "") = row := by
          rw [lastRowFor_append, if_pos rfl]
        rw [hlast]
        exact hkfattr i hi1 hi2
      · rw [PyDict.get?_set_ne _ _ _ _ hvg] at hv'
        obtain ⟨ki, hki, hfwd⟩ := hattr v keys' hv' i hi1 hi2
        refine ⟨ki, hki, ?_⟩
        have hlast : lastRowFor (rows ++ [row]) v = lastRowFor rows v := by
          rw [lastRowFor_append, if_neg (fun h => hvg h.symm)]
        rw [hlast]
        have hiN : i < N := by omega
        obtain ⟨L, hnd, hL⟩ := hTEwf i hiN
        rw [getFwd, hL] at hfwd
        obtain ⟨M, hM⟩ := hfinext i L hL hnd
        rw [hM]
        show (Double_dict.ofList (L ++ M)).forward_dict.get? ki = _
        exact ofList_fwd_mono L M ki _
          (show (Double_dict.ofList L).forward_dict.get? ki = _ from hfwd)
    · show ∀ v ∈ groupsOf (rows ++ [row]),
        ((r.TE_count.set (row.getD 1 "")
          (List.replicate r.sample_number 0)).get? v).isSome
      intro v hv
      by_cases hvg : v = row.getD 1 ""
      · subst hvg
        rw [PyDict.get?_set_self]
        rfl
      · rw [PyDict.get?_set_ne _ _ _ _ hvg]
        refine hcnt v ?_
        rw [groupsOf_append] at hv
        by_cases hg : row.getD 1 "" ∈ groupsOf rows
        · rw [if_pos hg] at hv; exact hv
        · rw [if_neg hg] at hv
          rcases List.mem_append.mp hv with h | h
          · exact h
          · exact absurd (List.mem_singleton.mp h) hvg
    · show ∀ v ∈ groupsOf (rows ++ [row]),
        ((r.TE_count_total.set (row.getD 1 "") 0).get? v).isSome
      intro v hv
      by_cases hvg : v = row.getD 1 ""
      · subst hvg
        rw [PyDict.get?_set_self]
        rfl
      · rw [PyDict.get?_set_ne _ _ _ _ hvg]
        refine htot v ?_
        rw [groupsOf_append] at hv
        by_cases hg : row.getD 1 "" ∈ groupsOf rows
        · rw [if_pos hg] at hv; exact hv
        · rw [if_neg hg] at hv
          rcases List.mem_append.mp hv with h | h
          · exact h
          · exact absurd (List.mem_singleton.mp h) hvg
    · show ∀ v ∈ groupsOf (rows ++ [row]),
        ((r.TE_count_valid.set (row.getD 1 "") true).get? v).isSome
      intro v hv
      by_cases hvg : v = row.getD 1 ""
      · subst hvg
        rw [PyDict.get?_set_self]
        rfl
      · rw [PyDict.get?_set_ne _ _ _ _ hvg]
        refine hval v ?_
        rw [groupsOf_append] at hv
        by_cases hg : row.getD 1 "" ∈ groupsOf rows
        · rw [if_pos hg] at hv; exact hv
        · rw [if_neg hg] at hv
          rcases List.mem_append.mp hv with h | h
          · exact h
          · exact absurd (List.mem_singleton.mp h) hvg

/-- The freshly initialised `Rosette` (user grouping column 2, splitting
off) satisfies the load invariant for the empty table. -/
theorem init_inv (rows : List (List String)) (n : Nat)
    (hN : 2 ≤ (rows.headD []).length) :
    C4Inv (rows.headD []).length [] (Rosette.init rows 2 n false) := by
  have hrep : Double_dict.mkEmpty ::
      List.replicate ((rows.headD []).length - 1) Double_dict.mkEmpty =
      List.replicate (rows.headD []).length Double_dict.mkEmpty := by
    have h : (rows.headD []).length = ((rows.headD []).length - 1) + 1 := by
      omega
    conv_rhs => rw [h]
    rw [List.replicate_succ]
  have hgetj : ∀ j, j < (rows.headD []).length →
      (Rosette.init rows 2 n false).TE.get? j =
        some (Double_dict.ofList []) := by
    intro j hj
    show (Double_dict.mkEmpty ::
      List.replicate ((rows.headD []).length - 1) Double_dict.mkEmpty).get? j
      = some (Double_dict.ofList [])
    rw [hrep, List.get?_eq_getElem?, List.getElem?_replicate, if_pos hj]
    rfl
  refine ⟨rfl, rfl, rfl, ?_, ?_, ?_, rfl, ?_, ?_, ?_, ?_, ?_, ?_⟩
  · show (Double_dict.mkEmpty ::
      List.replicate ((rows.headD []).length - 1) Double_dict.mkEmpty).length
      = (rows.headD []).length
    rw [hrep, List.length_replicate]
  · intro j hj
    exact ⟨[], List.nodup_nil, hgetj j hj⟩
  · exact hgetj 1 (by omega)
  · intro v keys hv
    have hv' : (none : Option (List Nat)) = some keys := hv
    cases hv'
  · intro v keys hv
    have hv' : (none : Option (List Nat)) = some keys := hv
    cases hv'
  · intro v keys hv
    have hv' : (none : Option (List Nat)) = some keys := hv
    cases hv'
  · intro v hv
    exact absurd hv (List.not_mem_nil v)
  · intro v hv
    exact absurd hv (List.not_mem_nil v)
  · intro v hv
    exact absurd hv (List.not_mem_nil v)

theorem load_inv_fold (N : Nat) (hN : 2 ≤ N) (pend : List (List String)) :
    ∀ (done : List (List String)) (r : Rosette), C4Inv N done r →
      (∀ row ∈ pend, row.length = N) →
      ∃ r', pend.foldlM Rosette.add r = some r' ∧
        C4Inv N (done ++ pend) r' := by
  induction pend with
  | nil =>
    intro done r hinv _
    exact ⟨r, rfl, by rw [List.append_nil]; exact hinv⟩
  | cons row pendt ih =>
    intro done r hinv hlen
    obtain ⟨r1, hadd, hinv1⟩ :=
      add_inv N hN done r hinv row (hlen row (List.mem_cons_self row pendt))
    obtain ⟨r', hfold, hinv'⟩ := ih (done ++ [row]) r1 hinv1
      (fun q hq => hlen q (List.mem_cons_of_mem row hq))
    refine ⟨r', ?_, ?_⟩
    · rw [List.foldlM_cons, hadd]
      exact hfold
    · rw [List.append_assoc, List.singleton_append] at hinv'
      exact hinv'

/-- `Rosette.load` with the default grouping column 2 and splitting off
establishes the invariant on uniform-width tables. -/
theorem load_inv (rows : List (List String)) (n : Nat)
    (hN : 2 ≤ (rows.headD []).length)
    (hlen : ∀ row ∈ rows, row.length = (rows.headD []).length)
    (r0 : Rosette) (hload : Rosette.load rows 2 n false = some r0) :
    C4Inv (rows.headD []).length rows r0 := by
  obtain ⟨r', hfold, hinv⟩ := load_inv_fold (rows.headD []).length hN rows []
    (Rosette.init rows 2 n false) (init_inv rows n hN) hlen
  rw [Rosette.load] at hload
  rw [hload] at hfold
  rw [List.nil_append] at hinv
  rw [Option.some_inj.mp hfold]
  exact hinv

/-- A present key stays present under `PyDict.set`. -/
theorem set_isSome_pres {α β : Type} [DecidableEq α] (d : PyDict α β)
    (a : α) (b : β) (v : α) (hv : (d.get? v).isSome) :
    ((d.set a b).get? v).isSome := by
  rw [PyDict.get?_set]
  by_cases h : v = a
  · rw [if_pos h]
    rfl
  · rw [if_neg h]
    exact hv

/-- Present keys survive any successful dict-threading fold whose steps
preserve them. -/
theorem foldlM_isSome_pres {α β γ : Type} [DecidableEq α]
    (step : PyDict α β → γ → Option (PyDict α β))
    (hstep : ∀ D x D1, step D x = some D1 →
      ∀ v, (D.get? v).isSome → (D1.get? v).isSome) :
    ∀ (xs : List γ) (D D' : PyDict α β),
      xs.foldlM step D = some D' →
      ∀ v, (D.get? v).isSome → (D'.get? v).isSome := by
  intro xs
  induction xs with
  | nil =>
    intro D D' h v hv
    cases h
    exact hv
  | cons x rest ih =>
    intro D D' h v hv
    rw [List.foldlM_cons] at h
    obtain ⟨D1, h1, hrest⟩ := Option.bind_eq_some.mp h
    exact ih D1 D' hrest v (hstep D x D1 h1 v hv)

/-- `Rosette.purge` preserves the load invariant (it only rewrites the
validity flags in place and sets `purged`). -/
theorem purge_inv (N : Nat) (rows : List (List String)) (r : Rosette)
    (inv : C4Inv N rows r) (flines : List String) (r' : Rosette)
    (h : r.purge flines = some r') : C4Inv N rows r' := by
  obtain ⟨hcc, hcol, hsd, hTElen, hTEwf, hTE1, hkeys, hlenE, hprim, hattr,
    hcnt, htot, hval⟩ := inv
  unfold Rosette.purge at h
  simp only [Option.bind_eq_bind, Option.bind_eq_some, Option.pure_def,
    Option.some.injEq] at h
  obtain ⟨validF, hfold, hr'⟩ := h
  subst hr'
  refine ⟨hcc, hcol, hsd, hTElen, hTEwf, hTE1, hkeys, hlenE, hprim, hattr,
    hcnt, htot, ?_⟩
  intro v hv
  refine foldlM_isSome_pres _ ?_ flines _ validF hfold v ?_
  · intro D line D1 hstep w hw
    simp only [Option.bind_eq_bind, Option.bind_eq_some] at hstep
    obtain ⟨c, hc, hstep⟩ := hstep
    by_cases hgt : c = '>'
    · rw [if_pos hgt] at hstep
      simp only [Option.bind_eq_bind, Option.bind_eq_some] at hstep
      obtain ⟨tok, htok, hstep⟩ := hstep
      cases hgcv : r.get_count_variable (pyStrTail tok) with
      | none =>
        rw [hgcv] at hstep
        cases hstep
      | some o =>
        cases o with
        | none =>
          rw [hgcv] at hstep
          simp only [Option.pure_def, Option.some.injEq] at hstep
          rw [← hstep]
          exact hw
        | some cv =>
          rw [hgcv] at hstep
          simp only [Option.pure_def, Option.some.injEq] at hstep
          rw [← hstep]
          exact set_isSome_pres D cv true w hw
    · rw [if_neg hgt] at hstep
      simp only [Option.pure_def, Option.some.injEq] at hstep
      rw [← hstep]
      exact hw
  · show ((r.TE_count_valid.mapVals fun _ _ => false).get? v).isSome
    rw [PyDict.get?_mapVals]
    have := hval v hv
    cases hh : r.TE_count_valid.get? v with
    | none => rw [hh] at this; cases this
    | some b => rfl

/-- Every driver operation preserves the load invariant when small-RNA
splitting is off. -/
theorem applyOp_inv (N : Nat) (rows : List (List String)) (r : Rosette)
    (inv : C4Inv N rows r) (op : RosOp) (r' : Rosette)
    (h : r.applyOp op = some r') : C4Inv N rows r' := by
  obtain ⟨hcc, hcol, hsd, hTElen, hTEwf, hTE1, hkeys, hlenE, hprim, hattr,
    hcnt, htot, hval⟩ := inv
  cases op with
  | startSample =>
    have h2 : r.reset_count = some r' := h
    unfold Rosette.reset_count at h2
    rw [hsd] at h2
    simp only [Option.bind_eq_bind, Option.bind_eq_some, Option.pure_def,
      Option.some.injEq] at h2
    obtain ⟨tc, hfold, hr'⟩ := h2
    subst hr'
    refine ⟨hcc, hcol, rfl, hTElen, hTEwf, hTE1, hkeys, hlenE, hprim, hattr,
      ?_, htot, hval⟩
    intro v hv
    refine foldlM_isSome_pres _ ?_ r.TE_count_variable.keys _ tc hfold v
      (hcnt v hv)
    intro D item D1 hstep w hw
    simp only [Option.bind_eq_bind, Option.bind_eq_some, Option.pure_def,
      Option.some.injEq] at hstep
    obtain ⟨row, hrow, row2, hrow2, hD1⟩ := hstep
    rw [← hD1]
    exact set_isSome_pres D item row2 w hw
  | countMain ident a =>
    have h2 : r.count ident a = some r' := h
    unfold Rosette.count at h2
    cases hid : r.TE_identifier.get? ident with
    | none =>
      rw [hid] at h2
      rw [← Option.some_inj.mp (show some r = some r' from h2)]
      exact ⟨hcc, hcol, hsd, hTElen, hTEwf, hTE1, hkeys, hlenE, hprim,
        hattr, hcnt, htot, hval⟩
    | some keys =>
      rw [hid] at h2
      simp only [Option.bind_eq_bind, Option.bind_eq_some, Option.pure_def,
        Option.some.injEq] at h2
      obtain ⟨k0, hk0, dd, hdd, cv, hcv, row, hrow, old, hold, row2, hrow2,
        tot, htot2, hr'⟩ := h2
      subst hr'
      refine ⟨hcc, hcol, hsd, hTElen, hTEwf, hTE1, hkeys, hlenE, hprim,
        hattr, ?_, ?_, hval⟩
      · intro v hv
        exact set_isSome_pres _ cv row2 v (hcnt v hv)
      · intro v hv
        exact set_isSome_pres _ cv (tot + a) v (htot v hv)
  | countSmall ident a =>
    have h2 : r.count_si ident a = some r' := h
    unfold Rosette.count_si at h2
    cases hid : r.TE_identifier.get? ident with
    | none =>
      rw [hid] at h2
      rw [← Option.some_inj.mp (show some r = some r' from h2)]
      exact ⟨hcc, hcol, hsd, hTElen, hTEwf, hTE1, hkeys, hlenE, hprim,
        hattr, hcnt, htot, hval⟩
    | some keys =>
      rw [hid] at h2
      simp only [Option.bind_eq_bind, Option.bind_eq_some, Option.pure_def,
        Option.some.injEq] at h2
      obtain ⟨k0, hk0, dd, hdd, cv, hcv, sd, hsd2, hrest⟩ := h2
      rw [hsd] at hsd2
      cases hsd2

/-- A successful run of driver operations preserves the load invariant. -/
theorem runOps_inv (N : Nat) (rows : List (List String)) (ops : List RosOp) :
    ∀ (r : Rosette), C4Inv N rows r →
      ∀ (r' : Rosette), r.runOps ops = some r' → C4Inv N rows r' := by
  induction ops with
  | nil =>
    intro r hinv r' h
    rw [← Option.some_inj.mp h]
    exact hinv
  | cons op rest ih =>
    intro r hinv r' h
    rw [Rosette.runOps, List.foldlM_cons] at h
    obtain ⟨r1, h1, hrest⟩ := Option.bind_eq_some.mp h
    exact ih r1 (applyOp_inv N rows r hinv op r1 h1) r' hrest

/-- The attribute-output loop over indexes that all pass the
grouping-column test and all resolve: it emits one value per index. -/
theorem attrsFold_spec (r : Rosette) (cc : Nat) (keys : List Nat)
    (val : Nat → String) (idxs : List Nat)
    (hcc : ∀ i ∈ idxs, i + 1 ≠ cc)
    (hstep : ∀ i ∈ idxs, ∃ ki dd, keys.get? i = some ki ∧
      r.TE.get? i = some dd ∧ dd.forward_dict.get? ki = some (val i)) :
    ∀ acc, idxs.foldlM (fun acc i =>
      if i + 1 ≠ cc then do
        let k ← keys.get? i
        let dd ← r.TE.get? i
        let v ← dd.forward_dict.get? k
        pure (acc ++ [v])
      else pure acc) acc = some (acc ++ idxs.map val) := by
  induction idxs with
  | nil =>
    intro acc
    rw [List.map_nil, List.append_nil]
    rfl
  | cons i rest ih =>
    intro acc
    rw [List.foldlM_cons]
    obtain ⟨ki, dd, hki, hdd, hfwd⟩ := hstep i (List.mem_cons_self i rest)
    refine Option.bind_eq_some.mpr ⟨acc ++ [val i], ?_, ?_⟩
    · show (if i + 1 ≠ cc then
          (keys.get? i).bind (fun k => (r.TE.get? i).bind (fun dd =>
            (dd.forward_dict.get? k).bind (fun v => some (acc ++ [v]))))
        else some acc) = some (acc ++ [val i])
      rw [if_pos (hcc i (List.mem_cons_self i rest)), hki, hdd]
      show (dd.forward_dict.get? ki).bind (fun v => some (acc ++ [v])) =
        some (acc ++ [val i])
      rw [hfwd]
      rfl
    · have := ih (fun j hj => hcc j (List.mem_cons_of_mem i hj))
        (fun j hj => hstep j (List.mem_cons_of_mem i hj)) (acc ++ [val i])
      rw [this, List.map_cons, List.append_assoc, List.singleton_append]

/-- On an invariant-shaped state, `writeAttrs` of a stored key vector
recovers exactly the attribute columns of the last row carrying the
grouping value. -/
theorem writeAttrs_inv (N : Nat) (hN : 2 ≤ N) (rows : List (List String))
    (r : Rosette) (inv : C4Inv N rows r) (v : String) (keys : List Nat)
    (hv : r.TE_count_variable.get? v = some keys)
    (hlastlen : (lastRowFor rows v).length = N) :
    r.writeAttrs keys = some ((lastRowFor rows v).drop 2) := by
  have hrange : List.range (N - 1) = 0 :: List.range' 1 (N - 2) := by
    rw [List.range_eq_range']
    have h : N - 1 = (N - 2) + 1 := by omega
    rw [h, List.range'_succ]
  unfold Rosette.writeAttrs
  rw [inv.col, inv.cc, hrange, List.foldlM_cons]
  refine Option.bind_eq_some.mpr ⟨[], ?_, ?_⟩
  · show (if (0 : Nat) + 1 ≠ 1 then
        (keys.get? 0).bind (fun k => (r.TE.get? 0).bind (fun dd =>
          (dd.forward_dict.get? k).bind (fun w => some ([] ++ [w]))))
      else some []) = some []
    rw [if_neg (by omega)]
  · have hccs : ∀ i ∈ List.range' 1 (N - 2), i + 1 ≠ 1 := by
      intro i hi
      rw [List.mem_range'_1] at hi
      omega
    have hsteps : ∀ i ∈ List.range' 1 (N - 2), ∃ ki dd,
        keys.get? i = some ki ∧ r.TE.get? i = some dd ∧
        dd.forward_dict.get? ki =
          some ((lastRowFor rows v).getD (i + 1) "") := by
      intro i hi
      rw [List.mem_range'_1] at hi
      obtain ⟨ki, hki, hfwd⟩ := inv.entryAttr v keys hv i hi.1 (by omega)
      rw [getFwd] at hfwd
      cases hTE : r.TE.get? i with
      | none =>
        rw [hTE] at hfwd
        cases hfwd
      | some dd =>
        rw [hTE] at hfwd
        exact ⟨ki, dd, hki, rfl,
          show dd.forward_dict.get? ki = _ from hfwd⟩
    have hfold := attrsFold_spec r 1 keys
      (fun i => (lastRowFor rows v).getD (i + 1) "")
      (List.range' 1 (N - 2)) hccs hsteps []
    rw [hfold, List.nil_append]
    have hmap : (List.range' 1 (N - 2)).map
        (fun i => (lastRowFor rows v).getD (i + 1) "") =
        (lastRowFor rows v).drop 2 := by
      rw [drop_eq_map_getD (lastRowFor rows v) "" 2 (by omega), hlastlen,
        List.range'_eq_map_range, List.map_map]
      apply List.map_congr_left
      intro j _
      show (lastRowFor rows v).getD ((1 + j) + 1) "" =
        (lastRowFor rows v).getD (j + 2) ""
      congr 1
      omega
    rw [hmap]

/-- On an invariant-shaped state, the output line of a grouping value is
the value itself, the last carrying row's attributes, the per-sample
counts and the lifetime total. -/
theorem writeLineWith_inv (N : Nat) (hN : 2 ≤ N)
    (rows : List (List String)) (r : Rosette) (inv : C4Inv N rows r)
    (hrowlen : ∀ row ∈ rows, row.length = N)
    (v : String) (hv : v ∈ groupsOf rows) :
    r.writeLineWith r.TE_count r.TE_count_total v =
      some (v :: ((lastRowFor rows v).drop 2 ++
        (r.TE_count.getD v []).map pyStr ++
        [pyStr (r.TE_count_total.getD v 0)])) := by
  obtain ⟨keysv, hkeysv⟩ := Option.isSome_iff_exists.mp
    ((PyDict.get?_isSome_iff _ _).mpr (by rw [inv.keysEq]; exact hv))
  obtain ⟨rowv, hrowv⟩ := Option.isSome_iff_exists.mp (inv.counts v hv)
  obtain ⟨totv, htotv⟩ := Option.isSome_iff_exists.mp (inv.totals v hv)
  have hvmem : v ∈ firstSeen (te1Stream N rows) :=
    (mem_firstSeen _ v).mpr
      (mem_te1Stream N rows v ((mem_groupsOf rows v).mp hv))
  have hlastmem := lastRowFor_mem rows v ((mem_groupsOf rows v).mp hv)
  have hlastlen : (lastRowFor rows v).length = N := hrowlen _ hlastmem.1
  have hattrs : r.writeAttrs keysv = some ((lastRowFor rows v).drop 2) :=
    writeAttrs_inv N hN rows r inv v keysv hkeysv hlastlen
  unfold Rosette.writeLineWith
  rw [inv.cc]
  simp only [Option.bind_eq_bind, Option.bind_eq_some, Option.pure_def,
    Option.some.injEq]
  refine ⟨keysv, hkeysv,
    firstIdx v (firstSeen (te1Stream N rows)), inv.entryPrim v keysv hkeysv,
    Double_dict.ofList (firstSeen (te1Stream N rows)), inv.TE1,
    v, ?_, (lastRowFor rows v).drop 2, hattrs, rowv, hrowv, totv, htotv, ?_⟩
  · rw [Double_dict.get?_forward_ofList]
    exact get?_firstIdx v _ hvmem
  · rw [PyDict.getD, hrowv, PyDict.getD, htotv]
    rfl

/-- Forward run of the `write` accumulation (splitting off): when every
item's validity flag is present and every valid item's line is known,
the fold succeeds and emits exactly the valid items' lines in order. -/
theorem writeFoldN_forward (r : Rosette) (lineOf : String → List String) :
    ∀ (items : List String) (acc : List (List String)),
      (∀ it ∈ items, ∃ b, r.TE_count_valid.get? it = some b ∧
        (b = true → r.writeLineWith r.TE_count r.TE_count_total it =
          some (lineOf it))) →
      items.foldlM (fun acc item => do
          let valid ← r.TE_count_valid.get? item
          if valid then do
            let l1 ← r.writeLineWith r.TE_count r.TE_count_total item
            pure (acc ++ [l1])
          else pure acc) acc =
        some (acc ++ (items.filter
          (fun it => r.TE_count_valid.getD it false)).map lineOf) := by
  intro items
  induction items with
  | nil =>
    intro acc _
    rw [List.filter_nil, List.map_nil, List.append_nil]
    rfl
  | cons it rest ih =>
    intro acc hok
    obtain ⟨b, hb, hline⟩ := hok it (List.mem_cons_self it rest)
    have hgetD : r.TE_count_valid.getD it false = b := by
      rw [PyDict.getD, hb]
      rfl
    rw [List.foldlM_cons]
    cases b with
    | false =>
      refine Option.bind_eq_some.mpr ⟨acc, ?_, ?_⟩
      · show ((r.TE_count_valid.get? it).bind (fun valid =>
            if valid then
              (r.writeLineWith r.TE_count r.TE_count_total it).bind
                (fun l1 => some (acc ++ [l1]))
            else some acc)) = some acc
        rw [hb]
        rfl
      · rw [ih acc (fun q hq => hok q (List.mem_cons_of_mem it hq)),
          List.filter_cons, if_neg (by rw [hgetD]; exact Bool.false_ne_true)]
    | true =>
      refine Option.bind_eq_some.mpr ⟨acc ++ [lineOf it], ?_, ?_⟩
      · show ((r.TE_count_valid.get? it).bind (fun valid =>
            if valid then
              (r.writeLineWith r.TE_count r.TE_count_total it).bind
                (fun l1 => some (acc ++ [l1]))
            else some acc)) = some (acc ++ [lineOf it])
        rw [hb]
        show (r.writeLineWith r.TE_count r.TE_count_total it).bind
          (fun l1 => some (acc ++ [l1])) = some (acc ++ [lineOf it])
        rw [hline rfl]
        rfl
      · rw [ih (acc ++ [lineOf it])
            (fun q hq => hok q (List.mem_cons_of_mem it hq)),
          List.filter_cons, if_pos (by rw [hgetD]), List.map_cons,
          List.append_assoc, List.singleton_append]

/-- The iteration order of `write` on an invariant-shaped state is the
sort of the grouping values by their `TE[1]` interning keys. -/
theorem write_order (N : Nat) (rows : List (List String)) (r : Rosette)
    (inv : C4Inv N rows r) :
    pySortedBy (fun k => r.TE_count_variable.getD k [])
      r.TE_count_variable.keys = sortedGroups N rows := by
  rw [inv.keysEq]
  unfold sortedGroups
  apply pySortedBy_congr _ _ _ (nodup_firstSeen _)
  intro a ha b hb hab
  obtain ⟨ka, hka⟩ := Option.isSome_iff_exists.mp
    ((PyDict.get?_isSome_iff _ _).mpr (by rw [inv.keysEq]; exact ha))
  obtain ⟨kb, hkb⟩ := Option.isSome_iff_exists.mp
    ((PyDict.get?_isSome_iff _ _).mpr (by rw [inv.keysEq]; exact hb))
  have hpa := inv.entryPrim a ka hka
  have hpb := inv.entryPrim b kb hkb
  have hamem : a ∈ firstSeen (te1Stream N rows) :=
    (mem_firstSeen _ a).mpr
      (mem_te1Stream N rows a ((mem_groupsOf rows a).mp ha))
  have hbmem : b ∈ firstSeen (te1Stream N rows) :=
    (mem_firstSeen _ b).mpr
      (mem_te1Stream N rows b ((mem_groupsOf rows b).mp hb))
  have hga : r.TE_count_variable.getD a [] = ka := by
    rw [PyDict.getD, hka]
    rfl
  have hgb : r.TE_count_variable.getD b [] = kb := by
    rw [PyDict.getD, hkb]
    rfl
  rw [hga, hgb]
  cases ka with
  | nil => cases hpa
  | cons a0 ta =>
    cases kb with
    | nil => cases hpb
    | cons b0 tb =>
      have ha0 : a0 = firstIdx a (firstSeen (te1Stream N rows)) :=
        Option.some_inj.mp hpa
      have hb0 : b0 = firstIdx b (firstSeen (te1Stream N rows)) :=
        Option.some_inj.mp hpb
      have hne : a0 ≠ b0 := by
        rw [ha0, hb0]
        intro h
        exact hab (firstIdx_inj _ a b hamem hbmem h)
      rw [listNatLe_head_ne a0 b0 ta tb hne, ha0, hb0]

/-- Full characterisation of `Rosette.write` on an invariant-shaped
state. -/
theorem write_inv (N : Nat) (hN : 2 ≤ N) (rows : List (List String))
    (r : Rosette) (inv : C4Inv N rows r)
    (hrowlen : ∀ row ∈ rows, row.length = N) :
    r.write = some
      (((sortedGroups N rows).filter
          (fun it => r.TE_count_valid.getD it false)).map
        (fun v => v :: ((lastRowFor rows v).drop 2 ++
          (r.TE_count.getD v []).map pyStr ++
          [pyStr (r.TE_count_total.getD v 0)])), []) := by
  have hok : ∀ it ∈ pySortedBy
      (fun k => r.TE_count_variable.getD k []) r.TE_count_variable.keys,
      ∃ b, r.TE_count_valid.get? it = some b ∧
        (b = true → r.writeLineWith r.TE_count r.TE_count_total it =
          some (it :: ((lastRowFor rows it).drop 2 ++
            (r.TE_count.getD it []).map pyStr ++
            [pyStr (r.TE_count_total.getD it 0)]))) := by
    intro it hit
    have hitg : it ∈ groupsOf rows := by
      rw [← inv.keysEq]
      exact (mem_pySortedBy _ _ it).mp hit
    obtain ⟨b, hbv⟩ := Option.isSome_iff_exists.mp (inv.valids it hitg)
    exact ⟨b, hbv, fun _ =>
      writeLineWith_inv N hN rows r inv hrowlen it hitg⟩
  have hfold := writeFoldN_forward r
    (fun v => v :: ((lastRowFor rows v).drop 2 ++
      (r.TE_count.getD v []).map pyStr ++
      [pyStr (r.TE_count_total.getD v 0)]))
    (pySortedBy (fun k => r.TE_count_variable.getD k [])
      r.TE_count_variable.keys) [] hok
  unfold Rosette.write
  rw [inv.sd]
  simp only [Option.bind_eq_bind, Option.bind_eq_some, Option.pure_def,
    Option.some.injEq]
  refine ⟨_, hfold, ?_⟩
  rw [List.nil_append, write_order N rows r inv]

/-- Claim C4 (corrected).  For every uniform-width annotation table with
at least two columns, loaded with the default grouping column (the
second; user value 2), then purged and driven through any successful
sequence of operations with small-RNA splitting off: `write` emits
exactly one line per valid grouping variable, ordered by the variable's
interning key in the shared `TE[1]` table (the order `sortedGroups`,
which is first-insertion order only when no other column's values
collide into that table), and each line holds the grouping value, the
attribute columns of the LAST loaded row carrying that variable (columns
3 onward, in original order), the per-sample count vector rendered by
`str`, and the lifetime total. -/
theorem claim_C4 (rows : List (List String)) (n : Nat) (hs : List String)
    (ops : List RosOp) (r0 r1 r2 : Rosette)
    (hN : 2 ≤ (rows.headD []).length)
    (hlen : ∀ row ∈ rows, row.length = (rows.headD []).length)
    (hload : Rosette.load rows 2 n false = some r0)
    (hpurge : r0.purge hs = some r1)
    (hops : r1.runOps ops = some r2) :
    r2.write = some
      (((sortedGroups (rows.headD []).length rows).filter
          (fun it => r2.TE_count_valid.getD it false)).map
        (fun v => v :: ((lastRowFor rows v).drop 2 ++
          (r2.TE_count.getD v []).map pyStr ++
          [pyStr (r2.TE_count_total.getD v 0)])), []) := by
  have inv0 := load_inv rows n hN hlen r0 hload
  have inv1 := purge_inv _ rows r0 inv0 hs r1 hpurge
  have inv2 := runOps_inv _ rows ops r1 inv1 r2 hops
  exact write_inv _ hN rows r2 inv2 hlen

/-- Witness for claim C4: a two-group table, a purge validating only
"G", one sample and one count call; the emitted line carries the LAST
row's attribute "B" and the counted totals. -/
theorem claim_C4_witness :
    ∃ r0 r1 r2,
      Rosette.load [["id1", "G", "A"], ["id2", "G", "B"]] 2 1 false =
        some r0 ∧
      r0.purge [">id1 x", "ACGT"] = some r1 ∧
      r1.runOps [RosOp.startSample, RosOp.countMain "id1" 3] = some r2 ∧
      r2.write = some ([["G", "B", "3", "3"]], []) := by
  refine ⟨_, _, _, rfl, rfl, rfl, ?_⟩
  exact (claim_C4 [["id1", "G", "A"], ["id2", "G", "B"]] 1
    [">id1 x", "ACGT"] [RosOp.startSample, RosOp.countMain "id1" 3]
    _ _ _ (by decide) (by decide) rfl rfl rfl).trans (by decide)
